import Mathlib

/-!
Verification development for the pz-lua-stubgen static analysis core.

The definitions below are shallow embeddings of the TypeScript source:
JavaScript `Set<string>` objects are modelled as insertion-ordered
duplicate-free lists (`TypeSet`), `Map` objects as association lists, and
in-place mutation as explicit state threading.  Fallible recursion is made
total with a fuel parameter; every theorem quantifies over the fuel or
supplies enough of it.
-/

namespace PZStubgen

/-- A JS `Set<string>`: an insertion-ordered list without duplicates.
`add` appends when the element is absent and otherwise leaves the set
unchanged, exactly like `Set.prototype.add`. -/
abbrev TypeSet := List String

/-- `Set.prototype.add`: append if absent. -/
def tsAdd (s : TypeSet) (x : String) : TypeSet :=
  if x ∈ s then s else s ++ [x]

/-- `forEach (x => target.add(x))`: fold `tsAdd` over a list. -/
def tsAddAll (s : TypeSet) (xs : List String) : TypeSet :=
  xs.foldl tsAdd s

/-- Build a JS set from a list of elements (`new Set([...])`). -/
def tsOf (xs : List String) : TypeSet :=
  tsAddAll [] xs

/-- Association-list lookup, the model of `Map.prototype.get`. -/
def lookupA {α β : Type} [DecidableEq α] : List (α × β) → α → Option β
  | [], _ => none
  | (k, v) :: r, key => if key = k then some v else lookupA r key

/-- Association-list update, the model of `Map.prototype.set`: replace in
place when the key is present, append otherwise. -/
def setA {α β : Type} [DecidableEq α] : List (α × β) → α → β → List (α × β)
  | [], k, v => [(k, v)]
  | (k', v') :: r, k, v => if k = k' then (k, v) :: r else (k', v') :: setA r k v

/-- `Set.prototype.add` for plain string sets. -/
def addSet (l : List String) (x : String) : List String :=
  if x ∈ l then l else l ++ [x]

/-- Pad a list of type sets with empty sets up to the given length.
Models the contiguous `arr[i] ??= new Set()` initialisations. -/
def padTo (l : List TypeSet) (len : Nat) : List TypeSet :=
  l ++ List.replicate (len - l.length) []

/-- Modify the element at an index, when present. -/
def listModify {α : Type} (l : List α) (i : Nat) (f : α → α) : List α :=
  match l, i with
  | [], _ => []
  | a :: r, 0 => f a :: r
  | a :: r, n+1 => a :: listModify r n f

/-- JS `array[index - 1]` for a 1-based index: `none` when the index is `0`
or past the end of the list. -/
def getIdx1 {α : Type} (l : List α) (index : Nat) : Option α :=
  if index = 0 then none else l.get? (index - 1)

/-- The normalized expression form built by the scope reader
(`LuaExpression` in `analysis/types`, spec section 3): a closed union of
`literal`, `reference`, `member`, `index`, `operation` and `require`
variants. -/
inductive LuaExpression : Type where
  | literal (luaType : String) (lit : Option String)
      (tableId : Option String) (functionId : Option String)
  | reference (id : String)
  | member (base : LuaExpression) (memberName : String) (indexer : String)
  | index (base : LuaExpression) (idx : LuaExpression)
  | operation (operator : String) (arguments : List LuaExpression)
  | require (module : String)

mutual

/-- Decidable equality for the nested expression type. -/
def decEqExpr : (a b : LuaExpression) → Decidable (a = b)
  | .literal t l ti fi, .literal t2 l2 ti2 fi2 =>
    if h : t = t2 ∧ l = l2 ∧ ti = ti2 ∧ fi = fi2 then
      isTrue (by obtain ⟨h1, h2, h3, h4⟩ := h; rw [h1, h2, h3, h4])
    else
      isFalse (by intro he; injection he with h1 h2 h3 h4; exact h ⟨h1, h2, h3, h4⟩)
  | .reference i, .reference i2 =>
    if h : i = i2 then isTrue (by rw [h])
    else isFalse (by intro he; injection he with h1; exact h h1)
  | .member b m ix, .member b2 m2 ix2 =>
    match decEqExpr b b2 with
    | isTrue hb =>
      if h : m = m2 ∧ ix = ix2 then
        isTrue (by obtain ⟨h1, h2⟩ := h; rw [hb, h1, h2])
      else
        isFalse (by intro he; injection he with e1 e2 e3; exact h ⟨e2, e3⟩)
    | isFalse hb =>
      isFalse (by intro he; injection he with e1 e2 e3; exact hb e1)
  | .index b i, .index b2 i2 =>
    match decEqExpr b b2, decEqExpr i i2 with
    | isTrue hb, isTrue hi => isTrue (by rw [hb, hi])
    | isFalse hb, _ => isFalse (by intro he; injection he with e1 e2; exact hb e1)
    | _, isFalse hi => isFalse (by intro he; injection he with e1 e2; exact hi e2)
  | .operation o a, .operation o2 a2 =>
    match decEqExprList a a2 with
    | isTrue ha =>
      if h : o = o2 then isTrue (by rw [h, ha])
      else isFalse (by intro he; injection he with e1 e2; exact h e1)
    | isFalse ha =>
      isFalse (by intro he; injection he with e1 e2; exact ha e2)
  | .require m, .require m2 =>
    if h : m = m2 then isTrue (by rw [h])
    else isFalse (by intro he; injection he with h1; exact h h1)
  | .literal _ _ _ _, .reference _ => isFalse (by intro h; cases h)
  | .literal _ _ _ _, .member _ _ _ => isFalse (by intro h; cases h)
  | .literal _ _ _ _, .index _ _ => isFalse (by intro h; cases h)
  | .literal _ _ _ _, .operation _ _ => isFalse (by intro h; cases h)
  | .literal _ _ _ _, .require _ => isFalse (by intro h; cases h)
  | .reference _, .literal _ _ _ _ => isFalse (by intro h; cases h)
  | .reference _, .member _ _ _ => isFalse (by intro h; cases h)
  | .reference _, .index _ _ => isFalse (by intro h; cases h)
  | .reference _, .operation _ _ => isFalse (by intro h; cases h)
  | .reference _, .require _ => isFalse (by intro h; cases h)
  | .member _ _ _, .literal _ _ _ _ => isFalse (by intro h; cases h)
  | .member _ _ _, .reference _ => isFalse (by intro h; cases h)
  | .member _ _ _, .index _ _ => isFalse (by intro h; cases h)
  | .member _ _ _, .operation _ _ => isFalse (by intro h; cases h)
  | .member _ _ _, .require _ => isFalse (by intro h; cases h)
  | .index _ _, .literal _ _ _ _ => isFalse (by intro h; cases h)
  | .index _ _, .reference _ => isFalse (by intro h; cases h)
  | .index _ _, .member _ _ _ => isFalse (by intro h; cases h)
  | .index _ _, .operation _ _ => isFalse (by intro h; cases h)
  | .index _ _, .require _ => isFalse (by intro h; cases h)
  | .operation _ _, .literal _ _ _ _ => isFalse (by intro h; cases h)
  | .operation _ _, .reference _ => isFalse (by intro h; cases h)
  | .operation _ _, .member _ _ _ => isFalse (by intro h; cases h)
  | .operation _ _, .index _ _ => isFalse (by intro h; cases h)
  | .operation _ _, .require _ => isFalse (by intro h; cases h)
  | .require _, .literal _ _ _ _ => isFalse (by intro h; cases h)
  | .require _, .reference _ => isFalse (by intro h; cases h)
  | .require _, .member _ _ _ => isFalse (by intro h; cases h)
  | .require _, .index _ _ => isFalse (by intro h; cases h)
  | .require _, .operation _ _ => isFalse (by intro h; cases h)

/-- Decidable equality for expression argument lists. -/
def decEqExprList : (a b : List LuaExpression) → Decidable (a = b)
  | [], [] => isTrue rfl
  | [], _ :: _ => isFalse (by intro h; cases h)
  | _ :: _, [] => isFalse (by intro h; cases h)
  | x :: xs, y :: ys =>
    match decEqExpr x y, decEqExprList xs ys with
    | isTrue h1, isTrue h2 => isTrue (by rw [h1, h2])
    | isFalse h1, _ => isFalse (by intro he; injection he with e1 e2; exact h1 e1)
    | _, isFalse h2 => isFalse (by intro he; injection he with e1 e2; exact h2 e2)

end

instance : DecidableEq LuaExpression := decEqExpr

/-- `LuaExpressionInfo`: an expression together with the optional return
position of a call assignment.  The source keys its `seen` cycle map by
object identity of these records; the embedding uses structural equality. -/
structure LuaExpressionInfo : Type where
  expression : LuaExpression
  index : Option Nat := none
deriving DecidableEq

/-- `FunctionInfo` (spec section 3): parameter and return data for one
function ID.  `minReturns` is `none` until the first returns item is merged,
modelling the source's `undefined`/`Number.MAX_VALUE` handling. -/
structure FunctionInfo : Type where
  parameters : List String := []
  parameterNames : List String := []
  parameterTypes : List TypeSet := []
  returnTypes : List TypeSet := []
  returnExpressions : List (List LuaExpression) := []
  minReturns : Option Nat := none
  isConstructor : Bool := false
deriving DecidableEq

/-- The part of `TableInfo` the type resolver reads: the per-field
definition lists. -/
structure TableInfo : Type where
  definitions : List (String × List LuaExpressionInfo) := []
deriving DecidableEq

/-- The resolved modules map, restricted to what `resolve` touches:
module name to the list of `returns[i].types` sets.  This is threaded
through `resolve` as mutable state because the `require` case aliases the
stored sets. -/
abbrev Modules := List (String × List TypeSet)

/-- The cycle map `seen`: expression info records to their running type
sets. -/
abbrev Seen := List (LuaExpressionInfo × TypeSet)

/-- The read-only portion of the `AnalysisContext` that `resolve` and its
helpers consult. -/
structure AnalysisCtx : Type where
  definitions : List (String × List LuaExpressionInfo) := []
  tables : List (String × TableInfo) := []
  funcInfos : List (String × FunctionInfo) := []
  paramToFunc : List (String × String) := []
  aliasMap : List (String × List String) := []
  usageTypes : List (LuaExpression × TypeSet) := []
deriving DecidableEq

/-- `AnalysisContext.getDefinitions`: the definition list for an ID, or
empty. -/
def getDefinitions (ctx : AnalysisCtx) (id : String) : List LuaExpressionInfo :=
  (lookupA ctx.definitions id).getD []

/-- `AnalysisContext.getFunctionInfo`: create-on-demand is modelled by a
default value, which is read-equivalent to the freshly created record. -/
def getFunctionInfo (ctx : AnalysisCtx) (id : String) : FunctionInfo :=
  (lookupA ctx.funcInfos id).getD {}

/-- `AnalysisContext.getTableInfo`, with the same create-on-demand
default. -/
def getTableInfo (ctx : AnalysisCtx) (id : String) : TableInfo :=
  (lookupA ctx.tables id).getD {}

/-- `AnalysisContext.getFunctionIdFromParamId`. -/
def getFunctionIdFromParamId (ctx : AnalysisCtx) (id : String) : Option String :=
  lookupA ctx.paramToFunc id

/-- Structural prefix test on strings, the model of JS
`String.prototype.startsWith` (written over the character lists so that it
evaluates inside the kernel). -/
def strStartsWith (s pre : String) : Bool :=
  pre.data.isPrefixOf s.data

/-- Structural suffix test on strings, the model of JS
`String.prototype.endsWith`. -/
def strEndsWith (s suf : String) : Bool :=
  suf.data.reverse.isPrefixOf s.data.reverse

/-- Drop the first characters of a string, the model of a positive JS
`slice`. -/
def strDrop (s : String) (n : Nat) : String :=
  ⟨s.data.drop n⟩

/-- Drop the last characters of a string, the model of a negative-end JS
`slice`. -/
def strDropRight (s : String) (n : Nat) : String :=
  ⟨s.data.take (s.data.length - n)⟩

/-- The splitting loop behind the JS `split`/`replaceAll` model: cut the
character list at every occurrence of the separator, left to right. -/
def splitOnGo (sep : List Char) : Nat → List Char → List Char → List (List Char)
  | 0, s, acc => [acc.reverse ++ s]
  | _+1, [], acc => [acc.reverse]
  | n+1, c :: rest, acc =>
    if sep.isPrefixOf (c :: rest) ∧ sep ≠ [] then
      acc.reverse :: splitOnGo sep n (List.drop (sep.length - 1) rest) []
    else splitOnGo sep n rest (c :: acc)

/-- The model of JS `String.prototype.split` for a non-empty separator. -/
def strSplitOn (s sep : String) : List String :=
  (splitOnGo sep.data (s.data.length + 1) s.data []).map String.mk

/-- Replace every occurrence of a pattern, the model of JS
`String.prototype.replaceAll` for a non-empty pattern. -/
def replaceAllStr (s pat rep : String) : String :=
  String.intercalate rep (strSplitOn s pat)

/-- Modelled from the spec: the helper `readLuaStringLiteral` is imported
by `get-literal-key.ts` but its source file is not part of the snapshot.
It turns a raw Lua string literal into its contents; per spec section 4.3
the key of an index operation is derived from a statically-resolvable
literal.  We model the plain quoted forms; no claim depends on the
details. -/
def readLuaStringLiteral (s : String) : Option String :=
  if 2 ≤ s.length ∧
      ((strStartsWith s "\"" = true ∧ strEndsWith s "\"" = true) ∨
        (strStartsWith s "\x27" = true ∧ strEndsWith s "\x27" = true)) then
    some (strDropRight (strDrop s 1) 1)
  else
    none

/-- `getLiteralKey` (`helpers/get-literal-key.ts`): convert a key value to
a table key string.  The `if (!internal) return key` test also catches the
empty string, which is falsy in JS. -/
def getLiteralKey (key : String) (ty : Option String := none) : String :=
  let internal : Option String :=
    match ty with
    | none => some key
    | some t => if t = "string" then readLuaStringLiteral key else none
  match internal with
  | none => key
  | some i =>
    if i = "" then key
    else "\"" ++ replaceAllStr i "\"" "\\\"" ++ "\""

/-- `TypeResolver.getTruthiness` inner loop: accumulate truthy and falsy
flags over the set, stopping at `boolean`. -/
def getTruthinessGo : List String → Bool → Bool → Option Bool
  | [], hasTruthy, hasFalsy =>
    if hasTruthy = hasFalsy then none else some hasTruthy
  | t :: rest, hasTruthy, hasFalsy =>
    if t = "boolean" then none
    else if t = "false" ∨ t = "nil" then getTruthinessGo rest hasTruthy true
    else getTruthinessGo rest true hasFalsy

/-- `TypeResolver.getTruthiness`: the statically determined truthiness of
a set of types, or `none` when undetermined. -/
def getTruthiness (types : List String) : Option Bool :=
  getTruthinessGo types false false

mutual

/-- `TypeResolver.isLiteralOperation`: the expression is a literal or an
operation tree over literals containing no call. -/
def isLiteralOperation : LuaExpression → Bool
  | .literal _ _ _ _ => true
  | .operation oper args =>
    if oper = "call" then false else isLiteralOperationList args
  | _ => false

/-- List form of `isLiteralOperation` for the argument stack. -/
def isLiteralOperationList : List LuaExpression → Bool
  | [] => true
  | a :: rest => isLiteralOperation a && isLiteralOperationList rest

end

/-- The final boolean-collapse step of `resolve`: when both `true` and
`false` are present, delete both and add `boolean`. -/
def collapseBooleans (s : TypeSet) : TypeSet :=
  if "true" ∈ s ∧ "false" ∈ s then
    tsAdd ((s.erase "true").erase "false") "boolean"
  else s

/-- `TypeResolver.remapBooleans`: rewrite `true` and `false` to `boolean`
in place (the rebuilt set deduplicates like the JS `Set`). -/
def remapBooleans (s : TypeSet) : TypeSet :=
  tsOf (s.map fun x => if x = "true" ∨ x = "false" then "boolean" else x)

/-- The filter predicate of `TypeResolver.narrowTypes`, exactly as the
source's if-else chain. -/
def narrowKeepB (usage : TypeSet) (t : String) : Bool :=
  if strStartsWith t "@function" = true ∧ "function" ∈ usage then true
  else if strStartsWith t "@table" = true ∧ "table" ∈ usage then true
  else decide (t ∈ usage)

/-- `TypeResolver.narrowTypes`: narrow a result set against the usage
record of the expression.  Skipped when the set has at most one element,
when no usage record exists, when the record is trivial (size 0 or 5), or
when narrowing would empty the set. -/
def narrowTypes (ctx : AnalysisCtx) (e : LuaExpression) (types : TypeSet) : TypeSet :=
  if types.length ≤ 1 then types
  else
    match lookupA ctx.usageTypes e with
    | none => types
    | some usage =>
      if usage.length = 0 ∨ usage.length = 5 then types
      else
        let narrowed := types.filter (narrowKeepB usage)
        if narrowed = [] then types else narrowed

/-- `TypeResolver.addKnownReturns`: hard-coded return types for a handful
of built-in functions, keyed on bare reference names.  `none` models the
`false` return. -/
def addKnownReturns : LuaExpression → Option TypeSet
  | .reference id =>
    if id = "tonumber" then some (tsOf ["number", "nil"])
    else if id = "getTextOrNull" then some (tsOf ["string", "nil"])
    else if id = "tostring" ∨ id = "getText" then some (tsOf ["string"])
    else none
  | _ => none

/-- `AnalysisContext.getModule` with `checkAliases = true`, reduced to the
key under which the module is found: the name itself when present,
otherwise the first alias of the name when that module exists. -/
def getModuleKey (mods : Modules) (aliasMap : List (String × List String))
    (name : String) : Option String :=
  if (lookupA mods name).isSome then some name
  else
    match lookupA aliasMap name with
    | some (a :: _) => if (lookupA mods a).isSome then some a else none
    | _ => none

/-- Write a narrowed set back into a module's stored returns.  This models
the aliasing in `resolve`'s `require` case: `typesToAdd` is the very `Set`
object stored in `mod.returns[i].types`, so an in-place narrowing updates
the module. -/
def setModuleReturn (mods : Modules) (k : String) (i : Nat) (v : TypeSet) : Modules :=
  match lookupA mods k with
  | some rets => setA mods k (rets.set i v)
  | none => mods

/-- The comparison operators of `resolveOperationTypes`. -/
def comparisonOps : List String := ["~=", "==", "<", "<=", ">", ">="]

/-- The arithmetic, bitwise and length operators of
`resolveOperationTypes`. -/
def arithOps : List String :=
  ["+", "-", "*", "%", "^", "/", "//", "&", "|", "~", "<<", ">>", "#"]

/-- Result record of `resolve`-family functions: the computed type set
plus the threaded `seen` map and modules state. -/
structure ROut : Type where
  types : TypeSet
  seen : Seen
  mods : Modules
deriving DecidableEq

/-- Result record of `resolveCallReturnTypes`: `none` models the
`undefined` return. -/
structure COut : Type where
  rets : Option (List TypeSet)
  seen : Seen
  mods : Modules
deriving DecidableEq

/-- The value form returned by `resolveToLiteral`. -/
structure LuaLiteralV : Type where
  luaType : String
  lit : Option String
deriving DecidableEq

/-- Result record of `resolveToLiteral`. -/
structure LOut : Type where
  lit : Option LuaLiteralV
  seen : Seen
  mods : Modules
deriving DecidableEq

/-- The tail of `resolve`: apply `narrowTypes`, write the narrowed set back
into the module when the `require` case aliased a stored set, copy into the
fresh result set, store it in `seen` and collapse booleans.  The JS code
stores the result object in `seen` and then mutates it in place with the
collapse, so the stored set is the collapsed one. -/
def finishResolve (ctx : AnalysisCtx) (info : LuaExpressionInfo) (seen2 : Seen)
    (mods2 : Modules) (typesToAdd : TypeSet) (writeBack : Option (String × Nat)) : ROut :=
  let narrowed := narrowTypes ctx info.expression typesToAdd
  let mods3 :=
    match writeBack with
    | some (k, i) => setModuleReturn mods2 k i narrowed
    | none => mods2
  let types := tsAddAll [] narrowed
  let final := collapseBooleans types
  ⟨final, setA seen2 info final, mods3⟩

mutual

/-- `TypeResolver.resolve`: the potential types of an expression, with the
`seen` cycle map and the resolved-modules state threaded explicitly.  The
fuel argument makes the recursion through definition lists total; every
inner call consumes one unit. -/
def resolve (ctx : AnalysisCtx) : Nat → LuaExpressionInfo → Seen → Modules → ROut
  | 0, _, seen, mods => ⟨[], seen, mods⟩
  | n+1, info, seen, mods =>
    match lookupA seen info with
    | some existing => ⟨existing, seen, mods⟩
    | none =>
      let seen1 := setA seen info []
      match info.expression with
      | .literal luaType lit tableId functionId =>
        let typesToAdd :=
          if lit = some "true" then tsAdd [] "true"
          else if lit = some "false" then tsAdd [] "false"
          else
            match tableId with
            | some t => tsAdd [] t
            | none =>
              match functionId with
              | some f => tsAdd [] f
              | none => tsAdd [] luaType
        finishResolve ctx info seen1 mods typesToAdd none
      | .operation oper args =>
        let r := resolveOperationTypes ctx n oper args (info.index.getD 1) seen1 mods
        finishResolve ctx info r.seen r.mods r.types none
      | .reference id =>
        let isParam := strStartsWith id "@parameter" || strStartsWith id "@self"
        let t0 :=
          if isParam || strStartsWith id "@function" || strStartsWith id "@instance" then
            tsAdd [] id
          else []
        if isParam then
          match getFunctionIdFromParamId ctx id with
          | none => finishResolve ctx info seen1 mods t0 none
          | some funcId =>
            let fi := getFunctionInfo ctx funcId
            let t1 :=
              match fi.parameters.findIdx? (· == id) with
              | some i => tsAddAll t0 (fi.parameterTypes.getD i [])
              | none => t0
            let r := resolveDefs ctx n (getDefinitions ctx id) t1 seen1 mods
            finishResolve ctx info r.seen r.mods r.types none
        else
          let r := resolveDefs ctx n (getDefinitions ctx id) t0 seen1 mods
          finishResolve ctx info r.seen r.mods r.types none
      | .member base memberName _ =>
        let rb := resolve ctx n ⟨base, info.index⟩ seen1 mods
        let rf := resolveFieldTypes ctx n rb.types memberName false rb.seen rb.mods
        finishResolve ctx info rf.seen rf.mods rf.types none
      | .index base idx =>
        let rb := resolve ctx n ⟨base, info.index⟩ seen1 mods
        let rl := resolveToLiteral ctx n idx rb.seen rb.mods
        match rl.lit with
        | none => finishResolve ctx info rl.seen rl.mods [] none
        | some l =>
          match l.lit with
          | none => finishResolve ctx info rl.seen rl.mods [] none
          | some litstr =>
            if litstr = "" then
              -- the JS test `!index.literal` also catches the empty string
              finishResolve ctx info rl.seen rl.mods [] none
            else
              let key := getLiteralKey litstr (some l.luaType)
              let rf := resolveFieldTypes ctx n rb.types key true rl.seen rl.mods
              finishResolve ctx info rf.seen rf.mods rf.types none
      | .require m =>
        match getModuleKey mods ctx.aliasMap m with
        | none => finishResolve ctx info seen1 mods [] none
        | some k =>
          let rets := (lookupA mods k).getD []
          let targetIdx := info.index.getD 1
          match getIdx1 rets targetIdx with
          | none => finishResolve ctx info seen1 mods [] none
          | some t =>
            -- `typesToAdd` aliases the stored set: record a write-back slot
            finishResolve ctx info seen1 mods t (some (k, targetIdx - 1))

/-- The definitions loop of `resolve`'s reference case (also reused for
field definition lists): resolve each entry and union the results into the
accumulator. -/
def resolveDefs (ctx : AnalysisCtx) :
    Nat → List LuaExpressionInfo → TypeSet → Seen → Modules → ROut
  | 0, _, acc, seen, mods => ⟨acc, seen, mods⟩
  | _+1, [], acc, seen, mods => ⟨acc, seen, mods⟩
  | n+1, d :: rest, acc, seen, mods =>
    let r := resolve ctx n d seen mods
    resolveDefs ctx n rest (tsAddAll acc r.types) r.seen r.mods

/-- `TypeResolver.resolveOperationTypes`: possible types for the result of
an operation, dispatching on the operator. -/
def resolveOperationTypes (ctx : AnalysisCtx) :
    Nat → String → List LuaExpression → Nat → Seen → Modules → ROut
  | 0, _, _, _, seen, mods => ⟨[], seen, mods⟩
  | n+1, oper, args, index, seen, mods =>
    if oper = "call" then
      let c := resolveCallReturnTypes ctx n args seen mods
      match c.rets with
      | none => ⟨[], c.seen, c.mods⟩
      | some rts =>
        match getIdx1 rts index with
        | none => ⟨tsAdd [] "nil", c.seen, c.mods⟩
        | some rs => ⟨tsAddAll [] rs, c.seen, c.mods⟩
    else if oper = ".." then ⟨tsAdd [] "string", seen, mods⟩
    else if oper ∈ comparisonOps then ⟨tsAdd [] "boolean", seen, mods⟩
    else if oper ∈ arithOps then ⟨tsAdd [] "number", seen, mods⟩
    else if oper = "not" then
      match args with
      | [] => ⟨[], seen, mods⟩ -- the source assumes an operand; unreachable
      | a :: _ =>
        let r := resolve ctx n ⟨a, none⟩ seen mods
        let truthy := if isLiteralOperation a then getTruthiness r.types else none
        match truthy with
        | none => ⟨tsAdd [] "boolean", r.seen, r.mods⟩
        | some t => ⟨tsAdd [] (if t then "false" else "true"), r.seen, r.mods⟩
    else if oper = "or" then
      match args with
      | lhs :: rhs :: _ =>
        let rl := resolve ctx n ⟨lhs, none⟩ seen mods
        let rr := resolve ctx n ⟨rhs, none⟩ rl.seen rl.mods
        -- X and Y or Z → substitute the types of Y for the left side
        let sub : TypeSet × Seen × Modules :=
          match lhs with
          | .operation "and" (_ :: y :: _) =>
            let ry := resolve ctx n ⟨y, none⟩ rr.seen rr.mods
            (ry.types, ry.seen, ry.mods)
          | _ => (rl.types, rr.seen, rr.mods)
        let lhsTruthy :=
          if isLiteralOperation lhs then getTruthiness sub.1 else none
        if lhsTruthy = some false then ⟨tsAddAll [] rr.types, sub.2.1, sub.2.2⟩
        else ⟨tsAddAll (tsAddAll [] rr.types) sub.1, sub.2.1, sub.2.2⟩
      | _ => ⟨[], seen, mods⟩ -- the source assumes two operands; unreachable
    else if oper = "and" then
      match args with
      | lhs :: rhs :: _ =>
        let rl := resolve ctx n ⟨lhs, none⟩ seen mods
        let rr := resolve ctx n ⟨rhs, none⟩ rl.seen rl.mods
        let lhsTruthy :=
          if isLiteralOperation lhs then getTruthiness rl.types else none
        match lhsTruthy with
        | some true => ⟨tsAddAll [] rr.types, rr.seen, rr.mods⟩
        | some false => ⟨tsAddAll [] rl.types, rr.seen, rr.mods⟩
        | none => ⟨tsAddAll (tsAddAll [] rl.types) rr.types, rr.seen, rr.mods⟩
      | _ => ⟨[], seen, mods⟩ -- the source assumes two operands; unreachable
    else ⟨[], seen, mods⟩

/-- `TypeResolver.resolveCallReturnTypes`: the full list of return type
sets of a call, or `none` when the callee cannot be resolved to a single
known function. -/
def resolveCallReturnTypes (ctx : AnalysisCtx) :
    Nat → List LuaExpression → Seen → Modules → COut
  | 0, _, seen, mods => ⟨none, seen, mods⟩
  | n+1, args, seen, mods =>
    match args with
    | [] => ⟨none, seen, mods⟩
    | func :: _ =>
      match addKnownReturns func with
      | some known => ⟨some [known], seen, mods⟩
      | none =>
        let r := resolve ctx n ⟨func, none⟩ seen mods
        match r.types with
        | [f] =>
          if strStartsWith f "@function" then
            let fi := getFunctionInfo ctx f
            if fi.isConstructor then
              -- mark as an instance to correctly attribute fields
              ⟨some [tsAddAll (tsAdd [] "@instance") (fi.returnTypes.getD 0 [])],
                r.seen, r.mods⟩
            else
              ⟨some (fi.returnTypes.map (tsAddAll [])), r.seen, r.mods⟩
          else ⟨none, r.seen, r.mods⟩
        | _ => ⟨none, r.seen, r.mods⟩

/-- `TypeResolver.resolveFieldTypes`: union the resolved definitions of a
field over every base type that is a table ID. -/
def resolveFieldTypes (ctx : AnalysisCtx) :
    Nat → TypeSet → String → Bool → Seen → Modules → ROut
  | 0, _, _, _, seen, mods => ⟨[], seen, mods⟩
  | n+1, types, field, isIndex, seen, mods =>
    resolveFieldTypesGo ctx n types field isIndex [] seen mods

/-- The per-base-type loop of `resolveFieldTypes`. -/
def resolveFieldTypesGo (ctx : AnalysisCtx) :
    Nat → List String → String → Bool → TypeSet → Seen → Modules → ROut
  | 0, _, _, _, acc, seen, mods => ⟨acc, seen, mods⟩
  | _+1, [], _, _, acc, seen, mods => ⟨acc, seen, mods⟩
  | n+1, t :: rest, field, isIndex, acc, seen, mods =>
    if strStartsWith t "@table" then
      let ti := getTableInfo ctx t
      let literalKey := if isIndex then field else getLiteralKey field none
      let fieldDefs := (lookupA ti.definitions literalKey).getD []
      let r := resolveDefs ctx n fieldDefs acc seen mods
      resolveFieldTypesGo ctx n rest field isIndex r.types r.seen r.mods
    else resolveFieldTypesGo ctx n rest field isIndex acc seen mods

/-- `TypeResolver.resolveToLiteral`: follow single-definition chains to a
basic literal.  The stack-based loop of the source is modelled by direct
recursion; calls that omit the `seen` argument get a fresh empty map, whose
resulting state is discarded, while the modules state always persists. -/
def resolveToLiteral (ctx : AnalysisCtx) :
    Nat → LuaExpression → Seen → Modules → LOut
  | 0, _, seen, mods => ⟨none, seen, mods⟩
  | n+1, e, seen, mods =>
    match e with
    | .literal luaType lit _ _ =>
      if luaType ≠ "table" ∧ luaType ≠ "function" then
        ⟨some ⟨luaType, lit⟩, seen, mods⟩
      else ⟨none, seen, mods⟩
    | .reference id =>
      match getDefinitions ctx id with
      | [d] => resolveToLiteral ctx n d.expression seen mods
      | _ => ⟨none, seen, mods⟩
    | .member base memberName _ =>
      let rb := resolve ctx n ⟨base, none⟩ [] mods
      match rb.types with
      | [b] =>
        let ti := getTableInfo ctx b
        let key := getLiteralKey memberName none
        match (lookupA ti.definitions key).getD [] with
        | [d] => resolveToLiteral ctx n d.expression seen rb.mods
        | _ => ⟨none, seen, rb.mods⟩
      | _ => ⟨none, seen, rb.mods⟩
    | .index base idx =>
      let rb := resolve ctx n ⟨base, none⟩ [] mods
      match rb.types with
      | [b] =>
        let ri := resolveToLiteral ctx n idx seen rb.mods
        match ri.lit with
        | some l =>
          match l.lit with
          | some litstr =>
            if litstr = "" then ⟨none, ri.seen, ri.mods⟩
            else
              let ti := getTableInfo ctx b
              let key := getLiteralKey litstr (some l.luaType)
              match (lookupA ti.definitions key).getD [] with
              | [d] => resolveToLiteral ctx n d.expression ri.seen ri.mods
              | _ => ⟨none, ri.seen, ri.mods⟩
          | none => ⟨none, ri.seen, ri.mods⟩
        | none => ⟨none, ri.seen, ri.mods⟩
      | _ => ⟨none, seen, rb.mods⟩
    | .operation _ _ =>
      let r := resolve ctx n ⟨e, none⟩ seen mods
      match r.types with
      | [t] =>
        if t = "true" ∨ t = "false" then
          ⟨some ⟨"boolean", some t⟩, r.seen, r.mods⟩
        else ⟨none, r.seen, r.mods⟩
      | _ => ⟨none, r.seen, r.mods⟩
    | .require _ => ⟨none, seen, mods⟩

end

/-- `TypeResolver.resolveExpression`: resolution of a bare expression
without field metadata. -/
def resolveExpression (ctx : AnalysisCtx) (fuel : Nat) (e : LuaExpression)
    (seen : Seen) (mods : Modules) : ROut :=
  resolve ctx fuel ⟨e, none⟩ seen mods

/-- Update one function info record in place, the model of mutating the
shared `FunctionInfo` object. -/
def updFuncInfo (ctx : AnalysisCtx) (id : String) (f : FunctionInfo → FunctionInfo) :
    AnalysisCtx :=
  { ctx with funcInfos := setA ctx.funcInfos id (f (getFunctionInfo ctx id)) }

/-- Pad a list of expression lists (the `returnExpressions` field). -/
def padToE (l : List (List LuaExpression)) (len : Nat) : List (List LuaExpression) :=
  l ++ List.replicate (len - l.length) []

/-- Add an expression to a `Set` of expressions (append if absent). -/
def addExpr (l : List LuaExpression) (e : LuaExpression) : List LuaExpression :=
  if e ∈ l then l else l ++ [e]

/-- The nil-marking loops: add `nil` to every type set at an index at or
past `min`.  Shared shape of the final loop of `resolveReturns` and the
trailing-parameter loop of `addUsage`. -/
def addNilFrom (min : Nat) : Nat → List TypeSet → List TypeSet
  | _, [] => []
  | i, s :: rest =>
    (if min ≤ i then tsAdd s "nil" else s) :: addNilFrom min (i+1) rest

/-- `Math.min(funcInfo.minReturns ?? Number.MAX_VALUE, n)`. -/
def minReturnsMerge (cur : Option Nat) (n : Nat) : Nat :=
  match cur with
  | none => n
  | some m => Nat.min m n

/-- A `ReturnsItem` or a `ResolvedScopeItem` as passed to
`resolveReturns`; the resolved form carries the already-computed
`returns[i].types` sets (the only field the function reads from it). -/
inductive ReturnsArg : Type where
  | returnsItem (id : String) (rets : Option (List LuaExpression))
  | resolvedItem (id : String) (rets : Option (List TypeSet))

/-- The id of a returns argument. -/
def ReturnsArg.itemId : ReturnsArg → String
  | .returnsItem id _ => id
  | .resolvedItem id _ => id

/-- Whether the returns list is present (`item.returns !== undefined`). -/
def ReturnsArg.hasRets : ReturnsArg → Bool
  | .returnsItem _ r => r.isSome
  | .resolvedItem _ r => r.isSome

/-- The tail-call unpacking loop of `resolveReturns`: union each of the
callee's return sets (booleans remapped) into position `i + j`. -/
def applyTailReturns (ctx : AnalysisCtx) (id : String) :
    Nat → List TypeSet → AnalysisCtx
  | _, [] => ctx
  | i, fr :: rest =>
    let ctx1 := updFuncInfo ctx id fun fi =>
      { fi with returnTypes :=
          listModify (padTo fi.returnTypes (i+1)) i (tsAddAll · (remapBooleans fr)) }
    applyTailReturns ctx1 id (i+1) rest

/-- The per-position loop of `resolveReturns` for a raw returns item.
Threads the context (the shared `FunctionInfo` object is visible to the
inner `resolve` calls mid-update) and the modules state, and accumulates
`fullReturnCount`. -/
def resolveReturnsExprs (fuel : Nat) (id : String) (last : Nat) :
    AnalysisCtx → Modules → Nat → Nat → List LuaExpression → AnalysisCtx × Modules × Nat
  | ctx, mods, _, frc, [] => (ctx, mods, frc)
  | ctx, mods, i, frc, ret :: rest =>
    let ctx1 := updFuncInfo ctx id fun fi =>
      { fi with returnTypes := padTo fi.returnTypes (i+1),
                returnExpressions := padToE fi.returnExpressions (i+1) }
    let tail : Option (List TypeSet) × Modules :=
      if i = last then
        match ret with
        | .operation "call" cargs =>
          let c := resolveCallReturnTypes ctx1 fuel cargs [] mods
          (c.rets, c.mods)
        | _ => (none, mods)
      else (none, mods)
    match tail with
    | (some funcReturns, mods1) =>
      let ctx2 := updFuncInfo ctx1 id fun fi =>
        { fi with returnExpressions := listModify fi.returnExpressions i (addExpr · ret) }
      let ctx3 := applyTailReturns ctx2 id i funcReturns
      resolveReturnsExprs fuel id last ctx3 mods1 (i+1)
        ((frc - 1) + funcReturns.length) rest
    | (none, mods1) =>
      let ctx2 := updFuncInfo ctx1 id fun fi =>
        { fi with returnExpressions := listModify fi.returnExpressions i (addExpr · ret) }
      let r := resolve ctx2 fuel ⟨ret, none⟩ [] mods1
      let ctx3 := updFuncInfo ctx2 id fun fi =>
        { fi with returnTypes :=
            listModify fi.returnTypes i (tsAddAll · (remapBooleans r.types)) }
      resolveReturnsExprs fuel id last ctx3 r.mods (i+1) frc rest

/-- The per-position loop of `resolveReturns` for an already-resolved
scope item. -/
def applyResolvedReturns (id : String) :
    AnalysisCtx → Nat → List TypeSet → AnalysisCtx
  | ctx, _, [] => ctx
  | ctx, i, tys :: rest =>
    let ctx1 := updFuncInfo ctx id fun fi =>
      { fi with
        returnTypes :=
          listModify (padTo fi.returnTypes (i+1)) i fun s => tsAddAll s tys,
        returnExpressions := padToE fi.returnExpressions (i+1) }
    applyResolvedReturns id ctx1 (i+1) rest

/-- The tail of `resolveReturns`: merge `fullReturnCount` into
`minReturns` and mark every recorded return position at or past the
minimum as nullable. -/
def finishReturns (ctx : AnalysisCtx) (id : String) (frc : Nat) : AnalysisCtx :=
  updFuncInfo ctx id fun fi =>
    let m := minReturnsMerge fi.minReturns frc
    { fi with minReturns := some m, returnTypes := addNilFrom m 0 fi.returnTypes }

/-- `TypeResolver.resolveReturns`: merge the return information of one
returns item (or resolved sub-scope) into the function info of the owning
scope.  Class constructors only update `minReturns`. -/
def resolveReturns (ctx : AnalysisCtx) (fuel : Nat) (mods : Modules)
    (item : ReturnsArg) : AnalysisCtx × Modules :=
  match item with
  | .returnsItem _ none => (ctx, mods)
  | .resolvedItem _ none => (ctx, mods)
  | .returnsItem id (some rets) =>
    let fi := getFunctionInfo ctx id
    if fi.isConstructor then
      -- don't add returns to a class constructor
      (updFuncInfo ctx id fun f =>
        { f with minReturns := some (minReturnsMerge f.minReturns rets.length) }, mods)
    else
      let t := resolveReturnsExprs fuel id (rets.length - 1) ctx mods 0 rets.length rets
      (finishReturns t.1 id t.2.2, t.2.1)
  | .resolvedItem id (some rets) =>
    let fi := getFunctionInfo ctx id
    if fi.isConstructor then
      (updFuncInfo ctx id fun f =>
        { f with minReturns := some (minReturnsMerge f.minReturns rets.length) }, mods)
    else
      let ctx1 := applyResolvedReturns id ctx 0 rets
      (finishReturns ctx1 id rets.length, mods)

/-- A usage analysis item (`UsageItem`): the capability flags recorded by
the scope reader for one expression, plus the optional call-argument
list. -/
structure UsageItem : Type where
  expression : LuaExpression
  supportsConcatenation : Bool := false
  supportsIndexing : Bool := false
  supportsLength : Bool := false
  supportsIndexAssignment : Bool := false
  supportsMath : Bool := false
  inNumericFor : Bool := false
  arguments : Option (List LuaExpression) := none

/-- The five candidate usage types, in the initialisation order of
`addUsage`. -/
def fiveTypes : TypeSet := ["boolean", "function", "number", "string", "table"]

/-- The deletion cascade of `addUsage` applied to the recorded set. -/
def usageDeletions (s0 : TypeSet) (item : UsageItem) : TypeSet :=
  let s1 :=
    if item.supportsConcatenation then
      ((s0.erase "boolean").erase "function").erase "table"
    else s0
  let s2 :=
    if item.supportsIndexing || item.supportsLength then
      ((s1.erase "boolean").erase "function").erase "number"
    else s1
  let s3 :=
    if item.supportsIndexAssignment then
      (((s2.erase "boolean").erase "function").erase "number").erase "string"
    else s2
  let s4 :=
    if item.supportsMath || item.inNumericFor then
      (((s3.erase "boolean").erase "function").erase "string").erase "table"
    else s3
  if item.arguments.isSome then
    (((s4.erase "boolean").erase "number").erase "string").erase "table"
  else s4

/-- The argument loop of `addUsage`: union each resolved argument into the
inferred parameter types. -/
def addArgParamTypes (fuel : Nat) (f : String) :
    AnalysisCtx → Modules → Nat → List LuaExpression → AnalysisCtx × Modules
  | ctx, mods, _, [] => (ctx, mods)
  | ctx, mods, i, arg :: rest =>
    let ctx1 := updFuncInfo ctx f fun fi =>
      { fi with parameterTypes := padTo fi.parameterTypes (i+1) }
    let r := resolve ctx1 fuel ⟨arg, none⟩ [] mods
    let ctx2 := updFuncInfo ctx1 f fun fi =>
      { fi with parameterTypes := listModify fi.parameterTypes i (tsAddAll · r.types) }
    addArgParamTypes fuel f ctx2 r.mods (i+1) rest

/-- `AnalysisContext.addUsage` / `TypeResolver.addUsage`: record usage
flags for an expression (initialising the candidate set to all five types
and then only deleting), and for call usages feed the argument types into
the callee's inferred parameter types. -/
def addUsage (ctx : AnalysisCtx) (fuel : Nat) (mods : Modules)
    (item : UsageItem) : AnalysisCtx × Modules :=
  let base := (lookupA ctx.usageTypes item.expression).getD fiveTypes
  let newSet := usageDeletions base item
  let ctx1 := { ctx with usageTypes := setA ctx.usageTypes item.expression newSet }
  match item.arguments with
  | none => (ctx1, mods)
  | some args =>
    let r := resolve ctx1 fuel ⟨item.expression, none⟩ [] mods
    match r.types with
    | [f] =>
      if strStartsWith f "@function" then
        let t := addArgParamTypes fuel f ctx1 r.mods 0 args
        let ctx3 := updFuncInfo t.1 f fun fi =>
          { fi with parameterTypes := addNilFrom args.length 0 fi.parameterTypes }
        (ctx3, t.2)
      else (ctx1, r.mods)
    | _ => (ctx1, r.mods)

/-- `AnalysisContext.getUsageTypes`: the recorded usage set, or `none`
when absent or trivial (size 0 or 5). -/
def getUsageTypes (ctx : AnalysisCtx) (e : LuaExpression) : Option TypeSet :=
  match lookupA ctx.usageTypes e with
  | none => none
  | some t => if t.length = 0 ∨ t.length = 5 then none else some t

/-- `LuaDependencyInfo`: the reads, writes and requires of one scanned
file, as produced by the dependency reader. -/
structure LuaDependencyInfo : Type where
  reads : List String := []
  writes : List String := []
  requires : List String := []

/-- The mutable state of the `DependencyResolver`: the file set, the three
info maps, and the per-global setter sets. -/
structure DepState : Type where
  fileSet : List String := []
  readsMap : List (String × List String) := []
  writesMap : List (String × List String) := []
  requiresMap : List (String × List String) := []
  setters : List (String × List String) := []
deriving DecidableEq

/-- The extension-stripping loop in `getFileIdentifier` (first matching
extension wins). -/
def dropFirstExt (f : String) : List String → String
  | [] => f
  | ext :: rest =>
    if strEndsWith f ext then strDropRight f ext.data.length else dropFirstExt f rest

/-- `getFileIdentifier` (`helpers/common/get-file-identifier.ts`):
normalise a path to a file identifier — separators unified, the base path
and the first matching extension stripped, dots turned into slashes, a
leading slash removed. -/
def getFileIdentifier (filename : String) (basePath : Option String := none)
    (extensions : List String := [".lua"]) : String :=
  let bp := basePath.map fun b => replaceAllStr b "\\" "/"
  let f1 := replaceAllStr filename "\\" "/"
  let f2 :=
    match bp with
    | some b => if b ≠ "" ∧ strStartsWith f1 b = true then strDrop f1 b.data.length else f1
    | none => f1
  let f3 := dropFirstExt f2 extensions
  let f4 := replaceAllStr f3 "." "/"
  if strStartsWith f4 "/" then strDrop f4 1 else f4

/-- The setter registration loop of `readFile`. -/
def addSetters (setters : List (String × List String)) (writes : List String)
    (identifier : String) : List (String × List String) :=
  writes.foldl (fun acc g => setA acc g (addSet ((lookupA acc g).getD []) identifier))
    setters

/-- The try-block of `DependencyResolver.readFile`.  An `Except.error`
carries the state at the throw point; the duplicate-identifier check runs
before any mutation, while a reader failure happens after the file-set
insertion.  The reader outcome is a parameter: `Except.error` for a throw,
`Except.ok none` for an `undefined` info result. -/
def readFileBody (st : DepState) (filePath : String) (inDirectory : Option String)
    (readerResult : Except String (Option LuaDependencyInfo)) :
    Except (String × DepState) DepState :=
  let identifier := getFileIdentifier filePath inDirectory
  if identifier ∈ st.fileSet then .error ("Duplicate file identifier", st)
  else
    let st1 := { st with fileSet := addSet st.fileSet identifier }
    match readerResult with
    | .error e => .error (e, st1)
    | .ok none => .ok st1
    | .ok (some info) =>
      let st2 :=
        if 0 < info.reads.length then
          { st1 with readsMap := setA st1.readsMap identifier info.reads }
        else st1
      let st3 :=
        if 0 < info.writes.length then
          { st2 with writesMap := setA st2.writesMap identifier info.writes,
                     setters := addSetters st2.setters info.writes identifier }
        else st2
      if 0 < info.requires.length then
        .ok { st3 with requiresMap := setA st3.requiresMap identifier info.requires }
      else .ok st3

/-- `DependencyResolver.readFile`: the try-block wrapped in the catch that
logs and returns, keeping whatever state existed at the throw point. -/
def readFile (st : DepState) (filePath : String) (inDirectory : Option String)
    (readerResult : Except String (Option LuaDependencyInfo)) : DepState :=
  match readFileBody st filePath inDirectory readerResult with
  | .error (_, s) => s
  | .ok s => s

/-- The contribution of one required name to the explicit dependency list
in `getFileDependencies`: the name itself when known; otherwise the alias
set when it is a singleton, the subdirectory-matching aliases when any
match, or the whole alias set. -/
def gfdReqContribution (fileSet : List String)
    (aliases : List (String × List String)) (subdir : String) (r : String) :
    List String :=
  if r ∈ fileSet then [r]
  else
    match lookupA aliases r with
    | none => []
    | some aliasSet =>
      if aliasSet.length = 1 then aliasSet
      else
        let matched := aliasSet.filter (strStartsWith · subdir)
        if matched = [] then aliasSet else matched

/-- The requires loop of `getFileDependencies`. -/
def gfdExplicit (fileSet : List String) (aliases : List (String × List String))
    (subdir : String) : List String → List String
  | [] => []
  | r :: rest =>
    gfdReqContribution fileSet aliases subdir r ++ gfdExplicit fileSet aliases subdir rest

/-- The reads loop of `getFileDependencies`: the setters of every global
read. -/
def gfdImplicit (setters : List (String × List String)) : List String → List String
  | [] => []
  | g :: rest => (lookupA setters g).getD [] ++ gfdImplicit setters rest

/-- `DependencyResolver.getFileDependencies`: explicit requires (alias
resolved) followed by implicit setter dependencies not already explicit,
with the file itself removed. -/
def getFileDependencies (st : DepState) (identifier subdir : String)
    (aliases : List (String × List String)) : List String :=
  let explicit :=
    gfdExplicit st.fileSet aliases subdir ((lookupA st.requiresMap identifier).getD [])
  let implicit := gfdImplicit st.setters ((lookupA st.readsMap identifier).getD [])
  (explicit ++ implicit.filter fun x => decide (x ∉ explicit)).filter
    fun x => decide (x ≠ identifier)

/-- One insertion step of the case-insensitive sort used for the
per-subdirectory file stack. -/
def stackInsert (x : String) : List String → List String
  | [] => [x]
  | y :: r => if x.toUpper < y.toUpper then x :: y :: r else y :: stackInsert x r

/-- The sorted next-file stack, head first.  The source sorts the array in
descending case-insensitive order and pops from its end; we model the
resulting pop order directly as an ascending list. -/
def sortForStack (l : List String) : List String :=
  l.foldr stackInsert []

/-- Append an element to the partition at an index. -/
def pushAt (parts : List (List String)) (i : Nat) (x : String) : List (List String) :=
  listModify parts i (· ++ [x])

/-- The partition step of `groupFilesBySubdirectory` for one identifier:
the first subdirectory whose prefix matches receives it, otherwise the
catch-all bucket. -/
def groupStep (pres : List String) (acc : List (List String) × List String)
    (id : String) : List (List String) × List String :=
  match pres.findIdx? (fun p => strStartsWith id p) with
  | some i => (pushAt acc.1 i id, acc.2)
  | none => (acc.1, acc.2 ++ [id])

/-- `DependencyResolver.groupFilesBySubdirectory`: per-subdirectory file
lists (in subdirectory order) followed by the catch-all list. -/
def groupFiles (subdirs : List String) (fileSet : List String) : List (List String) :=
  let pres := subdirs.map (· ++ "/")
  let res := fileSet.foldl (groupStep pres) (subdirs.map fun _ => [], [])
  res.1 ++ [res.2]

/-- Modelled from the spec: the helper `getAliasMap` is imported from
'../helpers' but its source file is not in the repository snapshot.
Spec section 4.1: "for each identifier path a/b/c, register suffixes b/c,
c, etc., mapping to sets of full identifiers."  The analysis-order theorem
below holds for an arbitrary alias map, so nothing depends on the
details. -/
def aliasKeys : List String → List String
  | [] => []
  | [_] => []
  | _ :: rest => String.intercalate "/" rest :: aliasKeys rest

/-- Modelled from the spec: registration of one identifier's suffix
aliases. -/
def addAliases (acc : List (String × List String)) (id : String) :
    List (String × List String) :=
  (aliasKeys (strSplitOn id "/")).foldl
    (fun a k => setA a k (addSet ((lookupA a k).getD []) id)) acc

/-- Modelled from the spec: the alias map computed once from the file
set. -/
def getAliasMap (fileSet : List String) : List (String × List String) :=
  fileSet.foldl addAliases []

/-- The worklist state of `getAnalysisOrder`: the remaining sorted file
stack, the deque, and the shared insertion-ordered `order` and `seen`
sets. -/
structure OrdState : Type where
  files : List String
  dq : List String
  order : List String
  seen : List String
deriving DecidableEq

/-- One iteration of the worklist loop of `getAnalysisOrder`, applied to
the popped front element `f` and the remaining deque `rest`. -/
def ordStep (st : DepState) (aliases : List (String × List String))
    (subdir : String) (f : String) (rest : List String) (s : OrdState) : OrdState :=
  let seen1 := addSet s.seen f
  if f ∈ s.order then
    -- already in analysis order; process the next file
    match s.files with
    | [] => ⟨[], rest, s.order, seen1⟩
    | nf :: fs => ⟨fs, rest ++ [nf], s.order, seen1⟩
  else
    let depList := getFileDependencies st f subdir aliases
    let depsToAdd := depList.filter fun d => decide (d ∉ s.order) && decide (d ∉ seen1)
    if depsToAdd = [] then
      let order1 := addSet s.order f
      match s.files with
      | [] => ⟨[], rest, order1, seen1⟩
      | nf :: fs => ⟨fs, rest ++ [nf], order1, seen1⟩
    else
      -- push the dependencies in front of the re-pushed file
      ⟨s.files, depsToAdd.reverse ++ f :: rest, s.order, seen1⟩

/-- The worklist loop, made total by fuel; `none` models running out of
fuel and never occurs for the fuel chosen below. -/
def ordLoop (st : DepState) (aliases : List (String × List String))
    (subdir : String) : Nat → OrdState → Option (List String × List String)
  | 0, _ => none
  | n+1, s =>
    match s.dq with
    | [] => some (s.order, s.seen)
    | f :: rest => ordLoop st aliases subdir n (ordStep st aliases subdir f rest s)

/-- The finite universe every worklist element lives in: the scanned file
set together with every alias target and every recorded setter. -/
def depUniverse (st : DepState) (aliases : List (String × List String)) :
    Finset String :=
  (st.fileSet ++ (aliases.map (·.2)).flatten ++ (st.setters.map (·.2)).flatten).toFinset

/-- An upper bound for the length of any dependency list. -/
def depBound (st : DepState) (aliases : List (String × List String)) : Nat :=
  (st.requiresMap.map fun p => p.2.length).sum *
      (1 + ((aliases.map (·.2)).flatten).length)
    + (st.readsMap.map fun p => p.2.length).sum *
      (1 + ((st.setters.map (·.2)).flatten).length)

/-- The head-of-deque component of the termination measure: zero exactly
when the next pop is a not-yet-seen file. -/
def bComp (seen : List String) (dq : List String) : Nat :=
  match dq with
  | [] => 1
  | f :: _ => if f ∈ seen then 1 else 0

/-- The strictly decreasing termination measure of the worklist loop. -/
def ordMeasure (st : DepState) (aliases : List (String × List String))
    (s : OrdState) : Nat :=
  let U := depUniverse st aliases
  let K := depBound st aliases
  (2*K + 2) * ((U \ s.seen.toFinset).card * (U.card + 2) + bComp s.seen s.dq
      + (U \ s.order.toFinset).card)
    + (s.files.length + s.dq.length)

/-- One subdirectory partition of `getAnalysisOrder`: sort, seed the deque
with the first pop, and run the worklist with sufficient fuel. -/
def runPartition (st : DepState) (aliases : List (String × List String))
    (subdir : String) (files : List String) (order seen : List String) :
    Option (List String × List String) :=
  if files.isEmpty then some (order, seen)
  else
    match sortForStack files with
    | [] => some (order, seen)
    | f :: rest =>
      let s0 : OrdState := ⟨rest, [f], order, seen⟩
      ordLoop st aliases subdir (ordMeasure st aliases s0 + 1) s0

/-- The partition loop of `getAnalysisOrder`. -/
def runPartitions (st : DepState) (aliases : List (String × List String)) :
    List (List String × String) → List String → List String →
    Option (List String × List String)
  | [], order, seen => some (order, seen)
  | (files, subdir) :: rest, order, seen =>
    match runPartition st aliases subdir files order seen with
    | some (order1, seen1) => runPartitions st aliases rest order1 seen1
    | none => none

/-- `DependencyResolver.getAnalysisOrder`: partition the file set by
subdirectory, then run the dependency-ordering worklist over each
partition, sharing the `order` and `seen` sets. -/
def getAnalysisOrder (st : DepState) (subdirs : List String) :
    Option (List String) :=
  let aliases := getAliasMap st.fileSet
  let parts := groupFiles subdirs st.fileSet
  (runPartitions st aliases (parts.zip (subdirs ++ [""])) [] []).map (·.1)

/-- Spec-side description (written from the claim's words, for the
refinement proof of `getFileDependencies`): what a single required name
`r` contributes.  A known identifier contributes itself; an unknown one
with an alias set contributes the unique alias, the aliases starting with
the subdirectory, or all aliases when none match. -/
def specReqMatch (fileSet : List String) (aliases : List (String × List String))
    (subdir : String) (r x : String) : Prop :=
  (r ∈ fileSet ∧ x = r) ∨
  (r ∉ fileSet ∧ ∃ A, lookupA aliases r = some A ∧
    ((A.length = 1 ∧ x ∈ A) ∨
      (A.length ≠ 1 ∧
        (((∃ a ∈ A, strStartsWith a subdir = true) ∧ x ∈ A ∧ strStartsWith x subdir = true) ∨
          ((∀ a ∈ A, ¬ strStartsWith a subdir = true) ∧ x ∈ A)))))

/-- Spec-side description of the dependency set of a file: resolved
requires and setters of read globals, minus the file itself. -/
def specIsDep (st : DepState) (aliases : List (String × List String))
    (identifier subdir x : String) : Prop :=
  x ≠ identifier ∧
  ((∃ r ∈ (lookupA st.requiresMap identifier).getD [],
      specReqMatch st.fileSet aliases subdir r x) ∨
    (∃ g ∈ (lookupA st.readsMap identifier).getD [],
      x ∈ (lookupA st.setters g).getD []))

/-- A type set does not contain both boolean literals: the shape every
set returned by `resolve` has after the collapse. -/
def noBothBools (s : TypeSet) : Prop :=
  ¬ ("true" ∈ s ∧ "false" ∈ s)

/-- Every set stored in the `seen` cycle map avoids the true/false pair:
placeholders are empty and completed entries are collapsed. -/
def seenOK (seen : Seen) : Prop :=
  ∀ p ∈ seen, noBothBools p.2

/-- Every recorded usage set is a subset of the five candidate types. -/
def usageInvariant (ctx : AnalysisCtx) : Prop :=
  ∀ p ∈ ctx.usageTypes, ∀ x ∈ p.2, x ∈ fiveTypes

/-- The spec-side narrowing filter (written from the claim's words): a
member survives when its coarse kind is in the usage set — function IDs
match `function`, table IDs match `table`, everything else matches itself
literally. -/
def specKeep (usage : TypeSet) (t : String) : Bool :=
  if strStartsWith t "@function" then decide ("function" ∈ usage)
  else if strStartsWith t "@table" then decide ("table" ∈ usage)
  else decide (t ∈ usage)

/-- The elements of the worklist state all live in the dependency
universe, and the accumulated order is duplicate-free. -/
def ordInv (st : DepState) (aliases : List (String × List String))
    (s : OrdState) : Prop :=
  (∀ x ∈ s.dq, x ∈ depUniverse st aliases) ∧
  (∀ x ∈ s.files, x ∈ depUniverse st aliases) ∧
  s.order.Nodup

/-! ### Basic lemmas about the JS set and map models -/

theorem mem_tsAdd {s : TypeSet} {x y : String} :
    y ∈ tsAdd s x ↔ y ∈ s ∨ y = x := by
  unfold tsAdd
  split
  · rename_i h
    constructor
    · exact Or.inl
    · rintro (hy | rfl)
      · exact hy
      · exact h
  · simp

theorem self_mem_tsAdd (s : TypeSet) (x : String) : x ∈ tsAdd s x :=
  mem_tsAdd.mpr (Or.inr rfl)

theorem mem_tsAddAll {xs : List String} : ∀ {s y}, y ∈ tsAddAll s xs ↔ y ∈ s ∨ y ∈ xs := by
  induction xs with
  | nil => simp [tsAddAll]
  | cons a rest ih =>
    intro s y
    have : tsAddAll s (a :: rest) = tsAddAll (tsAdd s a) rest := rfl
    rw [this, ih, mem_tsAdd]
    simp only [List.mem_cons]
    tauto

theorem mem_tsOf {xs : List String} {y : String} : y ∈ tsOf xs ↔ y ∈ xs := by
  unfold tsOf; rw [mem_tsAddAll]; simp

theorem nodup_tsAdd {s : TypeSet} (h : s.Nodup) (x : String) : (tsAdd s x).Nodup := by
  unfold tsAdd
  split
  · exact h
  · rename_i hx
    rw [List.nodup_append]
    refine ⟨h, List.nodup_singleton x, ?_⟩
    intro y hy hyx
    rw [List.mem_singleton] at hyx
    exact hx (hyx ▸ hy)

theorem nodup_tsAddAll {xs : List String} : ∀ {s : TypeSet}, s.Nodup → (tsAddAll s xs).Nodup := by
  induction xs with
  | nil => intro s h; exact h
  | cons a rest ih =>
    intro s h
    exact ih (nodup_tsAdd h a)

theorem nodup_tsOf (xs : List String) : (tsOf xs).Nodup :=
  nodup_tsAddAll List.nodup_nil

theorem lookupA_mem {α β : Type} [DecidableEq α] {l : List (α × β)} {k : α} {v : β}
    (h : lookupA l k = some v) : (k, v) ∈ l := by
  induction l with
  | nil => simp [lookupA] at h
  | cons p rest ih =>
    unfold lookupA at h
    split at h
    · rename_i he
      cases h
      cases p
      simp_all
    · exact List.mem_cons_of_mem _ (ih h)

theorem lookupA_setA_self {α β : Type} [DecidableEq α] (l : List (α × β)) (k : α) (v : β) :
    lookupA (setA l k v) k = some v := by
  induction l with
  | nil => simp [setA, lookupA]
  | cons p rest ih =>
    unfold setA
    split
    · rename_i he
      simp [lookupA, he]
    · rename_i he
      unfold lookupA
      split
      · rename_i hk
        exact absurd hk he
      · exact ih

theorem mem_setA {α β : Type} [DecidableEq α] {l : List (α × β)} {k : α} {v : β} {p : α × β}
    (h : p ∈ setA l k v) : p ∈ l ∨ p = (k, v) := by
  induction l with
  | nil => simp [setA] at h; simp [h]
  | cons q rest ih =>
    unfold setA at h
    split at h
    · rcases List.mem_cons.mp h with h1 | h1
      · exact Or.inr h1
      · exact Or.inl (List.mem_cons_of_mem _ h1)
    · rcases List.mem_cons.mp h with h1 | h1
      · exact Or.inl (h1 ▸ List.mem_cons_self _ _)
      · rcases ih h1 with h2 | h2
        · exact Or.inl (List.mem_cons_of_mem _ h2)
        · exact Or.inr h2

theorem mem_addSet {l : List String} {x y : String} :
    y ∈ addSet l x ↔ y ∈ l ∨ y = x := by
  unfold addSet
  split
  · rename_i h
    constructor
    · exact Or.inl
    · rintro (hy | rfl)
      · exact hy
      · exact h
  · simp

theorem nodup_addSet {l : List String} (h : l.Nodup) (x : String) : (addSet l x).Nodup := by
  unfold addSet
  split
  · exact h
  · rename_i hx
    rw [List.nodup_append]
    refine ⟨h, List.nodup_singleton x, ?_⟩
    intro y hy hyx
    rw [List.mem_singleton] at hyx
    exact hx (hyx ▸ hy)

theorem addNilFrom_length (m : Nat) : ∀ (i : Nat) (l : List TypeSet),
    (addNilFrom m i l).length = l.length := by
  intro i l
  induction l generalizing i with
  | nil => rfl
  | cons s rest ih => simp [addNilFrom, ih]

theorem nil_mem_addNilFrom (m : Nat) : ∀ (l : List TypeSet) (i j : Nat),
    m ≤ i + j → j < l.length → "nil" ∈ (addNilFrom m i l).getD j [] := by
  intro l
  induction l with
  | nil => intro i j _ h; simp at h
  | cons s rest ih =>
    intro i j hm hj
    cases j with
    | zero =>
      have hmi : m ≤ i := by omega
      simp [addNilFrom, hmi, self_mem_tsAdd]
    | succ j' =>
      have : m ≤ (i+1) + j' := by omega
      have hj' : j' < rest.length := by simpa using hj
      simpa [addNilFrom] using ih (i+1) j' this hj'

/-! ### Lemmas about function-info updates -/

theorem getFunctionInfo_updFuncInfo_self (ctx : AnalysisCtx) (id : String)
    (f : FunctionInfo → FunctionInfo) :
    getFunctionInfo (updFuncInfo ctx id f) id = f (getFunctionInfo ctx id) := by
  unfold getFunctionInfo updFuncInfo
  rw [lookupA_setA_self]
  rfl

/-! ### C1: return-arity nullability -/

/-- C1 (amended): for a function that is not flagged as a class
constructor, after `resolveReturns` has processed a returns item for it,
if `minReturns = m` and `m` is smaller than the number of recorded return
positions, then `nil` is in the recorded return type set at every position
at or past `m`. -/
theorem c1_return_nullability (ctx : AnalysisCtx) (fuel : Nat) (mods : Modules)
    (item : ReturnsArg)
    (hc : (getFunctionInfo ctx item.itemId).isConstructor = false)
    (hr : item.hasRets = true)
    (m : Nat)
    (hm : (getFunctionInfo (resolveReturns ctx fuel mods item).1 item.itemId).minReturns
        = some m)
    (i : Nat) (hi : m ≤ i)
    (hlen : i <
      (getFunctionInfo (resolveReturns ctx fuel mods item).1 item.itemId).returnTypes.length) :
    "nil" ∈
      (getFunctionInfo (resolveReturns ctx fuel mods item).1 item.itemId).returnTypes.getD i [] := by
  cases item with
  | returnsItem id rets =>
    cases rets with
    | none => simp [ReturnsArg.hasRets] at hr
    | some rs =>
      simp only [ReturnsArg.itemId] at hc hm hlen ⊢
      simp only [resolveReturns, hc, Bool.false_eq_true, if_false] at hm hlen ⊢
      rw [finishReturns, getFunctionInfo_updFuncInfo_self] at hm hlen ⊢
      simp only [Option.some.injEq] at hm
      subst hm
      rw [addNilFrom_length] at hlen
      exact nil_mem_addNilFrom _ _ 0 i (by omega) hlen
  | resolvedItem id rets =>
    cases rets with
    | none => simp [ReturnsArg.hasRets] at hr
    | some rs =>
      simp only [ReturnsArg.itemId] at hc hm hlen ⊢
      simp only [resolveReturns, hc, Bool.false_eq_true, if_false] at hm hlen ⊢
      rw [finishReturns, getFunctionInfo_updFuncInfo_self] at hm hlen ⊢
      simp only [Option.some.injEq] at hm
      subst hm
      rw [addNilFrom_length] at hlen
      exact nil_mem_addNilFrom _ _ 0 i (by omega) hlen

/-- C1 witness: a concrete non-constructor function with an earlier
minimum arity of 0; after one more returns item of arity 1, position 0 is
nullable. -/
theorem c1_return_nullability_witness :
    (getFunctionInfo
        ({ funcInfos := [("f", { minReturns := some 0 })] } : AnalysisCtx)
        (ReturnsArg.returnsItem "f"
          (some [.literal "number" none none none])).itemId).isConstructor = false ∧
    "nil" ∈
      (getFunctionInfo
        (resolveReturns { funcInfos := [("f", { minReturns := some 0 })] } 5 []
          (ReturnsArg.returnsItem "f" (some [.literal "number" none none none]))).1
        (ReturnsArg.returnsItem "f"
          (some [.literal "number" none none none])).itemId).returnTypes.getD 0 [] :=
  ⟨by decide,
    c1_return_nullability { funcInfos := [("f", { minReturns := some 0 })] } 5 []
      (ReturnsArg.returnsItem "f" (some [.literal "number" none none none]))
      (by decide) (by decide) 0 (by decide) 0 (by decide) (by decide)⟩

/-- C1 counterexample: for a class constructor, `resolveReturns` returns
early without the nil-marking loop.  A constructor with recorded return
position `{@table(1)[Foo]}` that processes an empty returns item ends with
`minReturns = 0 < 1` recorded positions, yet `nil` is not added. -/
theorem c1_claim_counterexample :
    (getFunctionInfo
        (resolveReturns
          ({ funcInfos := [("@function(1)[new]",
              { returnTypes := [["@table(1)[Foo]"]], isConstructor := true })] } :
            AnalysisCtx)
          5 [] (ReturnsArg.returnsItem "@function(1)[new]" (some []))).1
        "@function(1)[new]").minReturns = some 0 ∧
    (getFunctionInfo
        (resolveReturns
          ({ funcInfos := [("@function(1)[new]",
              { returnTypes := [["@table(1)[Foo]"]], isConstructor := true })] } :
            AnalysisCtx)
          5 [] (ReturnsArg.returnsItem "@function(1)[new]" (some []))).1
        "@function(1)[new]").returnTypes.length = 1 ∧
    "nil" ∉
      (getFunctionInfo
        (resolveReturns
          ({ funcInfos := [("@function(1)[new]",
              { returnTypes := [["@table(1)[Foo]"]], isConstructor := true })] } :
            AnalysisCtx)
          5 [] (ReturnsArg.returnsItem "@function(1)[new]" (some []))).1
        "@function(1)[new]").returnTypes.getD 0 [] := by
  decide

/-! ### C3: call return types at a requested index -/

theorem get?_eq_some_getD {α : Type} (l : List α) (i : Nat) (d : α) (h : i < l.length) :
    l.get? i = some (l.getD i d) := by
  induction l generalizing i with
  | nil => simp at h
  | cons a rest ih =>
    cases i with
    | zero => rfl
    | succ j =>
      have : j < rest.length := by simpa using h
      simpa [List.getD] using ih j this

theorem callReturnTypes_single_known (ctx : AnalysisCtx) (n : Nat)
    (func : LuaExpression) (rest : List LuaExpression) (seen : Seen) (mods : Modules)
    (f : String) (s1 : Seen) (m1 : Modules)
    (h1 : resolve ctx n ⟨func, none⟩ seen mods = ⟨[f], s1, m1⟩)
    (h2 : strStartsWith f "@function" = true)
    (h3 : addKnownReturns func = none)
    (h4 : (getFunctionInfo ctx f).isConstructor = false) :
    resolveCallReturnTypes ctx (n+1) (func :: rest) seen mods =
      ⟨some ((getFunctionInfo ctx f).returnTypes.map (tsAddAll [])), s1, m1⟩ := by
  simp only [resolveCallReturnTypes, h3, h1, h2, h4, Bool.false_eq_true, if_false, if_true]

/-- C3 (amended): for a call operation whose callee resolves to exactly one
known function ID that is neither flagged as a constructor nor one of the
recognised intrinsic reference names, the type set computed at requested
return index k (1-based), before usage narrowing and boolean collapse,
equals the function's recorded return type set at position k; when k
exceeds the number of recorded return positions the computed set is
exactly the singleton containing nil. -/
theorem c3_call_return_index (ctx : AnalysisCtx) (n k : Nat)
    (func : LuaExpression) (rest : List LuaExpression) (seen : Seen) (mods : Modules)
    (f : String) (s1 : Seen) (m1 : Modules)
    (h1 : resolve ctx n ⟨func, none⟩ seen mods = ⟨[f], s1, m1⟩)
    (h2 : strStartsWith f "@function" = true)
    (h3 : addKnownReturns func = none)
    (h4 : (getFunctionInfo ctx f).isConstructor = false)
    (hk : 1 ≤ k) :
    (k ≤ (getFunctionInfo ctx f).returnTypes.length →
      ∀ t, t ∈ (resolveOperationTypes ctx (n+2) "call" (func :: rest) k seen mods).types ↔
        t ∈ (getFunctionInfo ctx f).returnTypes.getD (k-1) []) ∧
    ((getFunctionInfo ctx f).returnTypes.length < k →
      (resolveOperationTypes ctx (n+2) "call" (func :: rest) k seen mods).types = ["nil"]) := by
  have hcall := callReturnTypes_single_known ctx n func rest seen mods f s1 m1 h1 h2 h3 h4
  constructor
  · intro hlen t
    have hklen : k - 1 < (getFunctionInfo ctx f).returnTypes.length := by omega
    have hidx : getIdx1 ((getFunctionInfo ctx f).returnTypes.map (tsAddAll [])) k =
        some (tsAddAll [] ((getFunctionInfo ctx f).returnTypes.getD (k-1) [])) := by
      unfold getIdx1
      rw [if_neg (by omega)]
      rw [List.get?_map, get?_eq_some_getD _ _ [] hklen]
      rfl
    simp only [resolveOperationTypes, hcall, hidx]
    rw [if_pos trivial]
    show t ∈ tsAddAll [] (tsAddAll [] ((getFunctionInfo ctx f).returnTypes.getD (k-1) [])) ↔ _
    rw [mem_tsAddAll, mem_tsAddAll]
    simp
  · intro hlen
    have hidx : getIdx1 ((getFunctionInfo ctx f).returnTypes.map (tsAddAll [])) k = none := by
      unfold getIdx1
      rw [if_neg (by omega)]
      rw [List.get?_eq_none]
      simpa using (by omega : (getFunctionInfo ctx f).returnTypes.length ≤ k - 1)
    simp only [resolveOperationTypes, hcall, hidx]
    rw [if_pos trivial]
    show tsAdd [] "nil" = ["nil"]
    simp [tsAdd]

/-- C3 witness: a concrete non-constructor function with recorded returns
at one position; the call result at index 1 has exactly those member
types. -/
theorem c3_call_return_index_witness :
    addKnownReturns (.reference "@function(2)") = none ∧
    (∀ t, t ∈ (resolveOperationTypes
        ({ funcInfos := [("@function(2)", { returnTypes := [["number"]] })] } : AnalysisCtx)
        5 "call" [.reference "@function(2)"] 1 [] []).types ↔
      t ∈ (getFunctionInfo
        ({ funcInfos := [("@function(2)", { returnTypes := [["number"]] })] } : AnalysisCtx)
        "@function(2)").returnTypes.getD 0 []) :=
  ⟨by decide,
    (c3_call_return_index
      { funcInfos := [("@function(2)", { returnTypes := [["number"]] })] }
      3 1 (.reference "@function(2)") [] [] []
      "@function(2)"
      [(⟨.reference "@function(2)", none⟩, ["@function(2)"])] []
      (by decide) (by decide) (by decide) (by decide) (by decide)).1 (by decide)⟩

/-- C3 counterexample: when the single resolved function is a constructor,
the computed set additionally contains the marker `@instance`, so it is
not equal to the recorded return type set at position 1. -/
theorem c3_claim_counterexample :
    "@instance" ∈ (resolveOperationTypes
        ({ funcInfos := [("@function(1)",
            { returnTypes := [["@table(1)"]], isConstructor := true })] } : AnalysisCtx)
        5 "call" [.reference "@function(1)"] 1 [] []).types ∧
    "@instance" ∉ (getFunctionInfo
        ({ funcInfos := [("@function(1)",
            { returnTypes := [["@table(1)"]], isConstructor := true })] } : AnalysisCtx)
        "@function(1)").returnTypes.getD 0 [] := by
  decide

/-! ### C5: usage narrowing -/

theorem func_not_table (t : String) (h1 : strStartsWith t "@function" = true)
    (h2 : strStartsWith t "@table" = true) : False := by
  unfold strStartsWith at h1 h2
  have e1 : "@function".data = ['@','f','u','n','c','t','i','o','n'] := rfl
  have e2 : "@table".data = ['@','t','a','b','l','e'] := rfl
  rw [e1] at h1
  rw [e2] at h2
  rcases t with ⟨data⟩
  rcases data with _ | ⟨c1, data⟩
  · simp [List.isPrefixOf] at h1
  rcases data with _ | ⟨c2, data⟩
  · simp [List.isPrefixOf] at h1
  simp only [List.isPrefixOf, Bool.and_eq_true, beq_iff_eq] at h1 h2
  obtain ⟨-, hf, -⟩ := h1
  obtain ⟨-, ht, -⟩ := h2
  rw [← hf] at ht
  exact absurd ht (by decide)

theorem five_not_function {t : String} (ht : t ∈ fiveTypes) :
    strStartsWith t "@function" = false := by
  simp only [fiveTypes, List.mem_cons, List.not_mem_nil, or_false] at ht
  rcases ht with rfl | rfl | rfl | rfl | rfl <;> decide

theorem five_not_table {t : String} (ht : t ∈ fiveTypes) :
    strStartsWith t "@table" = false := by
  simp only [fiveTypes, List.mem_cons, List.not_mem_nil, or_false] at ht
  rcases ht with rfl | rfl | rfl | rfl | rfl <;> decide

theorem narrowKeepB_eq_specKeep {usage : TypeSet}
    (husage : ∀ x ∈ usage, x ∈ fiveTypes) (t : String) :
    narrowKeepB usage t = specKeep usage t := by
  unfold narrowKeepB specKeep
  by_cases hf : strStartsWith t "@function" = true
  · rw [hf]
    by_cases hfn : "function" ∈ usage
    · simp [hfn]
    · have htu : t ∉ usage := fun hx => by
        rw [five_not_function (husage t hx)] at hf
        exact Bool.false_ne_true hf
      have hnt : ¬ (strStartsWith t "@table" = true ∧ "table" ∈ usage) := by
        rintro ⟨h2, -⟩
        exact func_not_table t hf h2
      simp [hfn, hnt, htu]
  · have hf' : strStartsWith t "@function" = false := by
      cases h : strStartsWith t "@function"
      · rfl
      · exact absurd h hf
    rw [hf']
    by_cases hb : strStartsWith t "@table" = true
    · rw [hb]
      by_cases htb : "table" ∈ usage
      · simp [htb]
      · have htu : t ∉ usage := fun hx => by
          rw [five_not_table (husage t hx)] at hb
          exact Bool.false_ne_true hb
        simp [htb, htu]
    · have hb' : strStartsWith t "@table" = false := by
        cases h : strStartsWith t "@table"
        · rfl
        · exact absurd h hb
      simp [hf', hb']

/-- C5: when an expression has a recorded usage set of size 1 to 4 (always
a subset of the five candidate kinds, by the `addUsage` invariant), the
narrowing applied by `resolve` keeps exactly the members of the computed
set whose coarse kind is in the usage set, and leaves the set unchanged
when no member matches. -/
theorem c5_usage_narrowing (ctx : AnalysisCtx) (e : LuaExpression) (T usage : TypeSet)
    (hu : lookupA ctx.usageTypes e = some usage)
    (h1 : 1 ≤ usage.length) (h4 : usage.length ≤ 4)
    (husage : ∀ x ∈ usage, x ∈ fiveTypes) :
    narrowTypes ctx e T =
      (if T.filter (specKeep usage) = [] then T else T.filter (specKeep usage)) := by
  have hfc : T.filter (narrowKeepB usage) = T.filter (specKeep usage) :=
    List.filter_congr fun t _ => narrowKeepB_eq_specKeep husage t
  unfold narrowTypes
  by_cases hlen : T.length ≤ 1
  · rw [if_pos hlen]
    match T, hlen with
    | [], _ => simp
    | [a], _ =>
      rcases hsk : specKeep usage a with _ | _
      · simp [List.filter, hsk]
      · simp [List.filter, hsk]
  · rw [if_neg hlen, hu]
    show (if usage.length = 0 ∨ usage.length = 5 then T
          else if T.filter (narrowKeepB usage) = [] then T
          else T.filter (narrowKeepB usage)) = _
    rw [if_neg (by omega), hfc]

/-- C5 witness: a concrete two-element set narrowed by a singleton string
usage keeps exactly the matching member. -/
theorem c5_usage_narrowing_witness :
    lookupA ({ usageTypes := [(.reference "x", ["string"])] } : AnalysisCtx).usageTypes
      (.reference "x") = some ["string"] ∧
    narrowTypes { usageTypes := [(.reference "x", ["string"])] } (.reference "x")
        ["number", "string"] =
      (if (["number", "string"] : TypeSet).filter (specKeep ["string"]) = []
        then ["number", "string"]
        else (["number", "string"] : TypeSet).filter (specKeep ["string"])) :=
  ⟨by decide,
    c5_usage_narrowing { usageTypes := [(.reference "x", ["string"])] } (.reference "x")
      ["number", "string"] ["string"] (by decide) (by decide) (by decide) (by decide)⟩

/-! ### C6: the X and Y or Z ternary idiom -/

/-- C6: resolving `X and Y or Z` substitutes the types of `Y` for the left
side: when the substituted left side is statically falsy under the
literal-only truthiness analysis the result is exactly `Z`'s types, and
otherwise it is the union of `Z`'s types and the substituted `Y` types. -/
theorem c6_ternary_or (ctx : AnalysisCtx) (n idx : Nat) (x y z : LuaExpression)
    (tail : List LuaExpression) (seen : Seen) (mods : Modules) :
    resolveOperationTypes ctx (n+1) "or"
        (.operation "and" [x, y] :: z :: tail) idx seen mods =
      (let rl := resolve ctx n ⟨.operation "and" [x, y], none⟩ seen mods
       let rz := resolve ctx n ⟨z, none⟩ rl.seen rl.mods
       let ry := resolve ctx n ⟨y, none⟩ rz.seen rz.mods
       if isLiteralOperation (.operation "and" [x, y]) = true ∧
           getTruthiness ry.types = some false then
         ⟨tsAddAll [] rz.types, ry.seen, ry.mods⟩
       else ⟨tsAddAll (tsAddAll [] rz.types) ry.types, ry.seen, ry.mods⟩) := by
  simp only [resolveOperationTypes]
  norm_num [comparisonOps, arithOps]
  by_cases hlit : isLiteralOperation (.operation "and" [x, y]) = true
  · simp only [hlit, if_true, true_and]
    by_cases htr :
        getTruthiness (resolve ctx n ⟨y, none⟩
          (resolve ctx n ⟨z, none⟩
            (resolve ctx n ⟨.operation "and" [x, y], none⟩ seen mods).seen
            (resolve ctx n ⟨.operation "and" [x, y], none⟩ seen mods).mods).seen
          (resolve ctx n ⟨z, none⟩
            (resolve ctx n ⟨.operation "and" [x, y], none⟩ seen mods).seen
            (resolve ctx n ⟨.operation "and" [x, y], none⟩ seen mods).mods).mods).types
        = some false
    · simp [htr]
    · simp [htr]
  · have hlit' : isLiteralOperation (.operation "and" [x, y]) = false := by
      cases h : isLiteralOperation (.operation "and" [x, y])
      · rfl
      · exact absurd h hlit
    simp [hlit']

/-! ### C8: duplicate file identifiers -/

/-- C8: when `readFile` is called for a path whose computed identifier is
already in the file set, the duplicate throw is caught locally (the call
returns normally) and the state — file set, reads, writes, requires and
setter maps — is returned completely unchanged, so the first file wins. -/
theorem c8_duplicate_identifier (st : DepState) (filePath : String)
    (inDirectory : Option String)
    (readerResult : Except String (Option LuaDependencyInfo))
    (h : getFileIdentifier filePath inDirectory ∈ st.fileSet) :
    readFileBody st filePath inDirectory readerResult =
        .error ("Duplicate file identifier", st) ∧
      readFile st filePath inDirectory readerResult = st := by
  have hb : readFileBody st filePath inDirectory readerResult =
      .error ("Duplicate file identifier", st) := by
    unfold readFileBody
    rw [if_pos h]
  exact ⟨hb, by unfold readFile; rw [hb]⟩

/-- C8 witness: a second file normalising to an identifier already scanned
leaves the resolver state untouched. -/
theorem c8_duplicate_identifier_witness :
    getFileIdentifier "a/b.lua" none ∈
        ({ fileSet := ["a/b"], setters := [("G", ["a/b"])] } : DepState).fileSet ∧
    readFile { fileSet := ["a/b"], setters := [("G", ["a/b"])] } "a/b.lua" none
        (.ok (some { reads := ["H"], writes := ["G"], requires := ["a/c"] })) =
      { fileSet := ["a/b"], setters := [("G", ["a/b"])] } :=
  ⟨by decide,
    (c8_duplicate_identifier { fileSet := ["a/b"], setters := [("G", ["a/b"])] }
      "a/b.lua" none
      (.ok (some { reads := ["H"], writes := ["G"], requires := ["a/c"] }))
      (by decide)).2⟩

/-! ### C9: the require case mutates the target module -/

/-- C9 failing input: a module `m` with `returns[0].types` equal to the
two-element set containing `number` and `string`, and a `require "m"`
expression carrying the usage record `string`.  Resolving the require
expression narrows the module's stored return set in place: `number` is
gone from the module afterwards. -/
theorem c9_require_narrow_mutation :
    "number" ∈ ((lookupA ([("m", [["number", "string"]])] : Modules) "m").getD []).getD 0 [] ∧
    "number" ∉
      ((lookupA
        (resolve { usageTypes := [(.require "m", ["string"])] } 2
          ⟨.require "m", none⟩ [] [("m", [["number", "string"]])]).mods
        "m").getD []).getD 0 [] := by
  decide

/-! ### C7: the dependency list of a file -/

theorem mem_gfdExplicit {fileSet : List String} {aliases : List (String × List String)}
    {subdir x : String} : ∀ {reqs : List String},
    x ∈ gfdExplicit fileSet aliases subdir reqs ↔
      ∃ r ∈ reqs, x ∈ gfdReqContribution fileSet aliases subdir r := by
  intro reqs
  induction reqs with
  | nil => simp [gfdExplicit]
  | cons r rest ih =>
    simp only [gfdExplicit, List.mem_append, ih, List.mem_cons]
    constructor
    · rintro (h | ⟨r', hr', hx⟩)
      · exact ⟨r, Or.inl rfl, h⟩
      · exact ⟨r', Or.inr hr', hx⟩
    · rintro ⟨r', (rfl | hr'), hx⟩
      · exact Or.inl hx
      · exact Or.inr ⟨r', hr', hx⟩

theorem mem_gfdImplicit {setters : List (String × List String)} {x : String} :
    ∀ {reads : List String},
    x ∈ gfdImplicit setters reads ↔ ∃ g ∈ reads, x ∈ (lookupA setters g).getD [] := by
  intro reads
  induction reads with
  | nil => simp [gfdImplicit]
  | cons g rest ih =>
    simp only [gfdImplicit, List.mem_append, ih, List.mem_cons]
    constructor
    · rintro (h | ⟨g', hg', hx⟩)
      · exact ⟨g, Or.inl rfl, h⟩
      · exact ⟨g', Or.inr hg', hx⟩
    · rintro ⟨g', (rfl | hg'), hx⟩
      · exact Or.inl hx
      · exact Or.inr ⟨g', hg', hx⟩

theorem mem_gfdReqContribution {fileSet : List String}
    {aliases : List (String × List String)} {subdir r x : String} :
    x ∈ gfdReqContribution fileSet aliases subdir r ↔
      specReqMatch fileSet aliases subdir r x := by
  unfold gfdReqContribution specReqMatch
  by_cases hr : r ∈ fileSet
  · simp only [if_pos hr, List.mem_singleton]
    constructor
    · intro h; exact Or.inl ⟨hr, h⟩
    · rintro (⟨-, h⟩ | ⟨hnr, -⟩)
      · exact h
      · exact absurd hr hnr
  · rw [if_neg hr]
    rcases hl : lookupA aliases r with _ | A
    · show (x ∈ ([] : List String)) ↔ _
      simp only [List.not_mem_nil, false_iff]
      rintro (⟨hrf, -⟩ | ⟨-, A, hA, -⟩)
      · exact hr hrf
      · cases hA
    · show (x ∈ if A.length = 1 then A
          else if A.filter (strStartsWith · subdir) = [] then A
          else A.filter (strStartsWith · subdir)) ↔ _
      by_cases h1 : A.length = 1
      · simp only [if_pos h1]
        constructor
        · intro hx
          exact Or.inr ⟨hr, A, rfl, Or.inl ⟨h1, hx⟩⟩
        · rintro (⟨hrf, -⟩ | ⟨-, A', hA', hrest⟩)
          · exact absurd hrf hr
          · cases hA'
            rcases hrest with ⟨-, hx⟩ | ⟨hne, -⟩
            · exact hx
            · exact absurd h1 hne
      · rw [if_neg h1]
        by_cases hm : A.filter (strStartsWith · subdir) = []
        · rw [if_pos hm]
          have hall : ∀ a ∈ A, ¬ strStartsWith a subdir = true := by
            intro a ha hsa
            have : a ∈ A.filter (strStartsWith · subdir) :=
              List.mem_filter.mpr ⟨ha, hsa⟩
            rw [hm] at this
            exact List.not_mem_nil a this
          constructor
          · intro hx
            exact Or.inr ⟨hr, A, rfl, Or.inr ⟨h1, Or.inr ⟨hall, hx⟩⟩⟩
          · rintro (⟨hrf, -⟩ | ⟨-, A', hA', hrest⟩)
            · exact absurd hrf hr
            · cases hA'
              rcases hrest with ⟨h1', -⟩ | ⟨-, ⟨⟨a, ha, hsa⟩, -, -⟩ | ⟨-, hx⟩⟩
              · exact absurd h1' h1
              · exact absurd hsa (hall a ha)
              · exact hx
        · rw [if_neg hm]
          obtain ⟨w, hw⟩ := List.exists_mem_of_ne_nil _ hm
          have hwA := List.mem_filter.mp hw
          constructor
          · intro hx
            have hxf := List.mem_filter.mp hx
            exact Or.inr ⟨hr, A, rfl,
              Or.inr ⟨h1, Or.inl ⟨⟨w, hwA.1, hwA.2⟩, hxf.1, hxf.2⟩⟩⟩
          · rintro (⟨hrf, -⟩ | ⟨-, A', hA', hrest⟩)
            · exact absurd hrf hr
            · cases hA'
              rcases hrest with ⟨h1', -⟩ | ⟨-, ⟨-, hxA, hxs⟩ | ⟨hall, -⟩⟩
              · exact absurd h1' h1
              · exact List.mem_filter.mpr ⟨hxA, hxs⟩
              · exact absurd hwA.2 (hall w hwA.1)

/-- C7: membership in the list returned by `getFileDependencies` is
exactly the spec-side dependency relation — resolved requires (known
identifiers, unique aliases, subdirectory-preferred aliases, or all
aliases), together with the setters of every global the file reads, with
the file itself excluded; implicit entries already among the explicit
requires are deduplicated, which is invisible at the membership level. -/
theorem c7_file_dependencies (st : DepState) (aliases : List (String × List String))
    (identifier subdir x : String) :
    x ∈ getFileDependencies st identifier subdir aliases ↔
      specIsDep st aliases identifier subdir x := by
  unfold getFileDependencies specIsDep
  rw [List.mem_filter, List.mem_append, List.mem_filter]
  simp only [decide_eq_true_eq, mem_gfdExplicit, mem_gfdImplicit]
  simp only [mem_gfdReqContribution]
  constructor
  · rintro ⟨hE | ⟨hI, -⟩, hne⟩
    · exact ⟨hne, Or.inl hE⟩
    · exact ⟨hne, Or.inr hI⟩
  · rintro ⟨hne, hE | hI⟩
    · exact ⟨Or.inl hE, hne⟩
    · by_cases hEx : ∃ r ∈ (lookupA st.requiresMap identifier).getD [],
          specReqMatch st.fileSet aliases subdir r x
      · exact ⟨Or.inl hEx, hne⟩
      · exact ⟨Or.inr ⟨hI, hEx⟩, hne⟩

/-! ### C10: the usage-type candidate set -/

theorem usageDeletions_subset (s : TypeSet) (item : UsageItem) :
    usageDeletions s item ⊆ s := by
  unfold usageDeletions
  dsimp only
  split_ifs <;> intro x hx <;>
    (repeat replace hx := List.mem_of_mem_erase hx) <;> exact hx

theorem updFuncInfo_usageTypes (ctx : AnalysisCtx) (id : String)
    (f : FunctionInfo → FunctionInfo) :
    (updFuncInfo ctx id f).usageTypes = ctx.usageTypes := rfl

theorem addArgParamTypes_usageTypes (fuel : Nat) (f : String) :
    ∀ (args : List LuaExpression) (ctx : AnalysisCtx) (mods : Modules) (i : Nat),
    (addArgParamTypes fuel f ctx mods i args).1.usageTypes = ctx.usageTypes := by
  intro args
  induction args with
  | nil => intro ctx mods i; rfl
  | cons a rest ih =>
    intro ctx mods i
    simp only [addArgParamTypes]
    rw [ih]
    rfl

theorem addUsage_usageTypes (ctx : AnalysisCtx) (fuel : Nat) (mods : Modules)
    (item : UsageItem) :
    (addUsage ctx fuel mods item).1.usageTypes =
      setA ctx.usageTypes item.expression
        (usageDeletions ((lookupA ctx.usageTypes item.expression).getD fiveTypes) item) := by
  unfold addUsage
  dsimp only
  rcases item.arguments with _ | args
  · rfl
  · dsimp only
    split
    · split
      · rw [updFuncInfo_usageTypes, addArgParamTypes_usageTypes]
      · rfl
    · rfl

/-- C10: the recorded usage-type set is always a subset of the five
candidate types (`addUsage` initialises to all five and afterwards only
deletes), and `getUsageTypes` returns `none` exactly when no set is
recorded or the recorded set has size 0 or 5. -/
theorem c10_usage_types (ctx : AnalysisCtx) (fuel : Nat) (mods : Modules)
    (item : UsageItem) (e : LuaExpression)
    (hinv : usageInvariant ctx) :
    usageInvariant (addUsage ctx fuel mods item).1 ∧
    (∀ old, lookupA ctx.usageTypes item.expression = some old →
      lookupA (addUsage ctx fuel mods item).1.usageTypes item.expression =
          some (usageDeletions old item) ∧
        usageDeletions old item ⊆ old) ∧
    (getUsageTypes ctx e = none ↔
      (lookupA ctx.usageTypes e = none ∨
        ∃ t, lookupA ctx.usageTypes e = some t ∧ (t.length = 0 ∨ t.length = 5))) := by
  have hbase : ∀ x ∈ (lookupA ctx.usageTypes item.expression).getD fiveTypes,
      x ∈ fiveTypes := by
    rcases hl : lookupA ctx.usageTypes item.expression with _ | old
    · intro x hx; exact hx
    · intro x hx
      exact hinv _ (lookupA_mem hl) x hx
  refine ⟨?_, ?_, ?_⟩
  · intro p hp
    rw [addUsage_usageTypes] at hp
    rcases mem_setA hp with h1 | rfl
    · exact hinv p h1
    · intro x hx
      exact hbase x (usageDeletions_subset _ _ hx)
  · intro old hold
    rw [addUsage_usageTypes, hold]
    exact ⟨lookupA_setA_self _ _ _, usageDeletions_subset old item⟩
  · unfold getUsageTypes
    rcases hl : lookupA ctx.usageTypes e with _ | t
    · simp
    · dsimp only
      split_ifs with hs
      · simp only [true_iff]
        exact Or.inr ⟨t, rfl, hs⟩
      · constructor
        · intro h; cases h
        · rintro (h | ⟨t', ht', hs'⟩)
          · cases h
          · cases ht'
            exact absurd hs' hs

/-- C10 witness: a concrete math usage deletes everything but `number`
from a recorded two-element set. -/
theorem c10_usage_types_witness :
    usageInvariant { usageTypes := [(.reference "x", ["number", "string"])] } ∧
    (lookupA (addUsage { usageTypes := [(.reference "x", ["number", "string"])] } 3 []
          { expression := .reference "x", supportsMath := true }).1.usageTypes
        (.reference "x") =
      some (usageDeletions ["number", "string"]
        { expression := .reference "x", supportsMath := true }) ∧
      usageDeletions ["number", "string"]
          { expression := .reference "x", supportsMath := true } ⊆
        ["number", "string"]) :=
  ⟨by unfold usageInvariant; decide,
    (c10_usage_types { usageTypes := [(.reference "x", ["number", "string"])] } 3 []
      { expression := .reference "x", supportsMath := true } (.reference "x")
      (by unfold usageInvariant; decide)).2.1 ["number", "string"] (by decide)⟩

/-! ### C4: boolean collapse -/

theorem noBoth_nil : noBothBools [] := by
  intro h
  exact List.not_mem_nil _ h.1

theorem seenOK_nil : seenOK [] := fun p hp => absurd hp (List.not_mem_nil p)

theorem seenOK_setA {seen : Seen} (h : seenOK seen) {v : TypeSet}
    (hv : noBothBools v) (k : LuaExpressionInfo) : seenOK (setA seen k v) := by
  intro p hp
  rcases mem_setA hp with h1 | rfl
  · exact h p h1
  · exact hv

theorem noBoth_collapse {s : TypeSet} (hs : s.Nodup) :
    noBothBools (collapseBooleans s) := by
  unfold collapseBooleans
  split_ifs with hb
  · rintro ⟨ht, -⟩
    rcases mem_tsAdd.mp ht with h1 | h1
    · have h2 := List.mem_of_mem_erase h1
      have hnd : (s.erase "true").Nodup := hs.erase "true"
      rw [List.Nodup.mem_erase_iff hs] at h2
      exact h2.1 rfl
    · exact absurd h1 (by decide)
  · exact hb

theorem finishResolve_facts (ctx : AnalysisCtx) (info : LuaExpressionInfo)
    {seen2 : Seen} (h2 : seenOK seen2) (mods2 : Modules) (t : TypeSet)
    (wb : Option (String × Nat)) :
    noBothBools (finishResolve ctx info seen2 mods2 t wb).types ∧
      seenOK (finishResolve ctx info seen2 mods2 t wb).seen := by
  unfold finishResolve
  dsimp only
  have hnodup : (tsAddAll [] (narrowTypes ctx info.expression t)).Nodup :=
    nodup_tsAddAll List.nodup_nil
  have hnb := noBoth_collapse hnodup
  exact ⟨hnb, seenOK_setA h2 hnb info⟩

set_option maxHeartbeats 2000000 in
theorem resolver_seen_facts (ctx : AnalysisCtx) : ∀ n : Nat,
    (∀ info seen mods, seenOK seen →
      noBothBools (resolve ctx n info seen mods).types ∧
      seenOK (resolve ctx n info seen mods).seen) ∧
    (∀ defs acc seen mods, seenOK seen →
      seenOK (resolveDefs ctx n defs acc seen mods).seen) ∧
    (∀ oper args idx seen mods, seenOK seen →
      seenOK (resolveOperationTypes ctx n oper args idx seen mods).seen) ∧
    (∀ args seen mods, seenOK seen →
      seenOK (resolveCallReturnTypes ctx n args seen mods).seen) ∧
    (∀ types field isIdx seen mods, seenOK seen →
      seenOK (resolveFieldTypes ctx n types field isIdx seen mods).seen) ∧
    (∀ types field isIdx acc seen mods, seenOK seen →
      seenOK (resolveFieldTypesGo ctx n types field isIdx acc seen mods).seen) ∧
    (∀ e seen mods, seenOK seen →
      seenOK (resolveToLiteral ctx n e seen mods).seen) := by
  intro n
  induction n with
  | zero =>
    refine ⟨?_, ?_, ?_, ?_, ?_, ?_, ?_⟩ <;> intros <;>
      first
        | exact ⟨noBoth_nil, by assumption⟩
        | assumption
  | succ n ih =>
    obtain ⟨ihR, ihD, ihO, ihC, ihF, ihG, ihL⟩ := ih
    have ihRs : ∀ info seen mods, seenOK seen →
        seenOK (resolve ctx n info seen mods).seen := fun i s m h => (ihR i s m h).2
    refine ⟨?_, ?_, ?_, ?_, ?_, ?_, ?_⟩
    · -- resolve
      intro info seen mods h
      simp only [resolve]
      rcases hseen : lookupA seen info with _ | existing
      · have h1 : seenOK (setA seen info []) := seenOK_setA h noBoth_nil info
        rcases info with ⟨expr, idx⟩
        cases expr <;> dsimp only <;> (repeat' split) <;>
          first
            | apply finishResolve_facts _ _ h1
            | apply finishResolve_facts _ _ (ihO _ _ _ _ _ h1)
            | apply finishResolve_facts _ _ (ihD _ _ _ _ h1)
            | apply finishResolve_facts _ _ (ihF _ _ _ _ _ (ihRs _ _ _ h1))
            | apply finishResolve_facts _ _ (ihL _ _ _ (ihRs _ _ _ h1))
            | apply finishResolve_facts _ _ (ihF _ _ _ _ _ (ihL _ _ _ (ihRs _ _ _ h1)))
      · exact ⟨h _ (lookupA_mem hseen), h⟩
    · -- resolveDefs
      intro defs acc seen mods h
      match defs with
      | [] => exact h
      | d :: rest =>
        simp only [resolveDefs]
        exact ihD _ _ _ _ (ihRs _ _ _ h)
    · -- resolveOperationTypes
      intro oper args idx seen mods h
      simp only [resolveOperationTypes]
      split_ifs <;> (repeat' split) <;>
        first
          | exact h
          | exact ihC _ _ _ h
          | exact ihRs _ _ _ h
          | exact ihRs _ _ _ (ihRs _ _ _ h)
          | exact ihRs _ _ _ (ihRs _ _ _ (ihRs _ _ _ h))
    · -- resolveCallReturnTypes
      intro args seen mods h
      match args with
      | [] => exact h
      | func :: rest =>
        simp only [resolveCallReturnTypes]
        (repeat' split) <;>
          first
            | exact h
            | exact ihRs _ _ _ h
    · -- resolveFieldTypes
      intro types field isIdx seen mods h
      simp only [resolveFieldTypes]
      exact ihG _ _ _ _ _ _ h
    · -- resolveFieldTypesGo
      intro types field isIdx acc seen mods h
      match types with
      | [] => exact h
      | t :: rest =>
        simp only [resolveFieldTypesGo]
        split_ifs <;>
          first
            | exact ihG _ _ _ _ _ _ (ihD _ _ _ _ h)
            | exact ihG _ _ _ _ _ _ h
    · -- resolveToLiteral
      intro e seen mods h
      cases e with
      | literal luaType lit tableId functionId =>
        simp only [resolveToLiteral]
        split_ifs <;> exact h
      | reference id =>
        simp only [resolveToLiteral]
        split
        · exact ihL _ _ _ h
        · exact h
      | member base memberName indexer =>
        simp only [resolveToLiteral]
        split
        · split
          · exact ihL _ _ _ h
          · exact h
        · exact h
      | index base idx2 =>
        simp only [resolveToLiteral]
        split
        · split
          · split
            · split_ifs
              · exact ihL _ _ _ h
              · split
                · exact ihL _ _ _ (ihL _ _ _ h)
                · exact ihL _ _ _ h
            · exact ihL _ _ _ h
          · exact ihL _ _ _ h
        · exact h
      | operation oper args =>
        simp only [resolveToLiteral]
        split
        · split_ifs
          · exact ihRs _ _ _ h
          · exact ihRs _ _ _ h
        · exact ihRs _ _ _ h
      | require m =>
        exact h

/-- C4: no type set returned by `resolve` contains both `true` and
`false` — whenever both have accumulated, the final collapse removes them
and adds `boolean`; the seen-map early return keeps the invariant because
stored entries are themselves collapsed (placeholders are empty). -/
theorem c4_boolean_collapse (ctx : AnalysisCtx) (n : Nat) (info : LuaExpressionInfo)
    (seen : Seen) (mods : Modules) (h : seenOK seen) :
    ¬ ("true" ∈ (resolve ctx n info seen mods).types ∧
        "false" ∈ (resolve ctx n info seen mods).types) :=
  ((resolver_seen_facts ctx n).1 info seen mods h).1

/-- C4 witness: the disjunction `true or false` resolves to `boolean`, so
the returned set does not contain both literals. -/
theorem c4_boolean_collapse_witness :
    seenOK [] ∧
    ¬ ("true" ∈ (resolve {} 3
        ⟨.operation "or" [.literal "boolean" (some "true") none none,
          .literal "boolean" (some "false") none none], none⟩ [] []).types ∧
      "false" ∈ (resolve {} 3
        ⟨.operation "or" [.literal "boolean" (some "true") none none,
          .literal "boolean" (some "false") none none], none⟩ [] []).types) :=
  ⟨seenOK_nil,
    c4_boolean_collapse {} 3
      ⟨.operation "or" [.literal "boolean" (some "true") none none,
        .literal "boolean" (some "false") none none], none⟩ [] [] seenOK_nil⟩

/-! ### C2: termination and completeness of the analysis order -/

theorem mem_stackInsert {x y : String} : ∀ {l : List String},
    y ∈ stackInsert x l ↔ y = x ∨ y ∈ l := by
  intro l
  induction l with
  | nil => simp [stackInsert]
  | cons a rest ih =>
    unfold stackInsert
    split
    · simp
    · rw [List.mem_cons, ih, List.mem_cons]
      tauto

theorem mem_sortForStack {x : String} : ∀ {l : List String},
    x ∈ sortForStack l ↔ x ∈ l := by
  intro l
  induction l with
  | nil => simp [sortForStack]
  | cons a rest ih =>
    show x ∈ stackInsert a (sortForStack rest) ↔ _
    rw [mem_stackInsert, List.mem_cons, ih]

theorem fileSet_mem_depUniverse {st : DepState} {aliases : List (String × List String)}
    {x : String} (h : x ∈ st.fileSet) : x ∈ depUniverse st aliases := by
  unfold depUniverse
  rw [List.mem_toFinset]
  simp only [List.mem_append]
  exact Or.inl (Or.inl h)

theorem aliasTarget_mem_depUniverse {st : DepState}
    {aliases : List (String × List String)} {r x : String} {A : List String}
    (hl : lookupA aliases r = some A) (hx : x ∈ A) : x ∈ depUniverse st aliases := by
  unfold depUniverse
  rw [List.mem_toFinset]
  simp only [List.mem_append]
  refine Or.inl (Or.inr ?_)
  rw [List.mem_flatten]
  exact ⟨A, List.mem_map.mpr ⟨(r, A), lookupA_mem hl, rfl⟩, hx⟩

theorem setter_mem_depUniverse {st : DepState} {aliases : List (String × List String)}
    {g x : String} (hx : x ∈ (lookupA st.setters g).getD []) :
    x ∈ depUniverse st aliases := by
  rcases hl : lookupA st.setters g with _ | S
  · rw [hl] at hx; exact absurd hx (List.not_mem_nil x)
  · rw [hl] at hx
    unfold depUniverse
    rw [List.mem_toFinset]
    simp only [List.mem_append]
    refine Or.inr ?_
    rw [List.mem_flatten]
    exact ⟨S, List.mem_map.mpr ⟨(g, S), lookupA_mem hl, rfl⟩, hx⟩

theorem deps_mem_depUniverse {st : DepState} {aliases : List (String × List String)}
    {f subdir x : String} (h : x ∈ getFileDependencies st f subdir aliases) :
    x ∈ depUniverse st aliases := by
  unfold getFileDependencies at h
  rw [List.mem_filter] at h
  rcases List.mem_append.mp h.1 with hE | hI
  · rw [mem_gfdExplicit] at hE
    obtain ⟨r, -, hc⟩ := hE
    rw [mem_gfdReqContribution] at hc
    rcases hc with ⟨hr, rfl⟩ | ⟨-, A, hA, hrest⟩
    · exact fileSet_mem_depUniverse hr
    · have hxA : x ∈ A := by
        rcases hrest with ⟨-, hx⟩ | ⟨-, ⟨-, hx, -⟩ | ⟨-, hx⟩⟩ <;> exact hx
      exact aliasTarget_mem_depUniverse hA hxA
  · rw [List.mem_filter] at hI
    rw [mem_gfdImplicit] at hI
    obtain ⟨⟨g, -, hx⟩, -⟩ := hI
    exact setter_mem_depUniverse hx

theorem lookupA_length_le_sum {m : List (String × List String)} :
    ∀ {k : String} {v : List String}, lookupA m k = some v →
    v.length ≤ (m.map fun p => p.2.length).sum := by
  induction m with
  | nil => intro k v h; cases h
  | cons p rest ih =>
    intro k v h
    unfold lookupA at h
    split at h
    · cases h
      simp
    · have := ih h
      simp only [List.map_cons, List.sum_cons]
      omega

theorem lookupA_length_le_flatten {m : List (String × List String)} {k : String}
    {v : List String} (h : lookupA m k = some v) :
    v.length ≤ ((m.map (·.2)).flatten).length := by
  have hv : v ∈ m.map (·.2) := List.mem_map.mpr ⟨(k, v), lookupA_mem h, rfl⟩
  calc v.length ≤ ((m.map (·.2)).map List.length).sum := by
        have := List.le_sum_of_mem (List.mem_map_of_mem List.length hv)
        simpa using this
    _ = ((m.map (·.2)).flatten).length := (List.length_flatten _).symm

theorem gfdReqContribution_length_le (fileSet : List String)
    (aliases : List (String × List String)) (subdir r : String) :
    (gfdReqContribution fileSet aliases subdir r).length ≤
      1 + ((aliases.map (·.2)).flatten).length := by
  unfold gfdReqContribution
  split_ifs with h1
  · simp
  · rcases hl : lookupA aliases r with _ | A
    · simp
    · have hA := lookupA_length_le_flatten hl
      dsimp only
      split_ifs with h2 h3
      · omega
      · omega
      · have := List.length_filter_le (strStartsWith · subdir) A
        omega

theorem gfdExplicit_length_le (fileSet : List String)
    (aliases : List (String × List String)) (subdir : String) :
    ∀ reqs : List String,
    (gfdExplicit fileSet aliases subdir reqs).length ≤
      reqs.length * (1 + ((aliases.map (·.2)).flatten).length) := by
  intro reqs
  induction reqs with
  | nil => simp [gfdExplicit]
  | cons r rest ih =>
    have hc := gfdReqContribution_length_le fileSet aliases subdir r
    simp only [gfdExplicit, List.length_append, List.length_cons]
    calc (gfdReqContribution fileSet aliases subdir r).length +
          (gfdExplicit fileSet aliases subdir rest).length
        ≤ (1 + ((aliases.map (·.2)).flatten).length) +
          rest.length * (1 + ((aliases.map (·.2)).flatten).length) := by omega
      _ = (rest.length + 1) * (1 + ((aliases.map (·.2)).flatten).length) := by ring

theorem gfdImplicit_length_le (setters : List (String × List String)) :
    ∀ reads : List String,
    (gfdImplicit setters reads).length ≤
      reads.length * (1 + ((setters.map (·.2)).flatten).length) := by
  intro reads
  induction reads with
  | nil => simp [gfdImplicit]
  | cons g rest ih =>
    simp only [gfdImplicit, List.length_append, List.length_cons]
    have hg : ((lookupA setters g).getD []).length ≤
        ((setters.map (·.2)).flatten).length := by
      rcases hl : lookupA setters g with _ | S
      · simp
      · simpa using lookupA_length_le_flatten hl
    calc ((lookupA setters g).getD []).length + (gfdImplicit setters rest).length
        ≤ (1 + ((setters.map (·.2)).flatten).length) +
          rest.length * (1 + ((setters.map (·.2)).flatten).length) := by omega
      _ = (rest.length + 1) * (1 + ((setters.map (·.2)).flatten).length) := by ring

theorem getFileDependencies_length_le (st : DepState)
    (aliases : List (String × List String)) (f subdir : String) :
    (getFileDependencies st f subdir aliases).length ≤ depBound st aliases := by
  unfold getFileDependencies depBound
  dsimp only
  have h1 := List.length_filter_le (fun x => decide (x ≠ f))
    (gfdExplicit st.fileSet aliases subdir ((lookupA st.requiresMap f).getD []) ++
      (gfdImplicit st.setters ((lookupA st.readsMap f).getD [])).filter
        fun x =>
          decide (x ∉ gfdExplicit st.fileSet aliases subdir
            ((lookupA st.requiresMap f).getD [])))
  rw [List.length_append] at h1
  have h2 := List.length_filter_le
    (fun x =>
      decide (x ∉ gfdExplicit st.fileSet aliases subdir
        ((lookupA st.requiresMap f).getD [])))
    (gfdImplicit st.setters ((lookupA st.readsMap f).getD []))
  have h3 := gfdExplicit_length_le st.fileSet aliases subdir
    ((lookupA st.requiresMap f).getD [])
  have h4 := gfdImplicit_length_le st.setters ((lookupA st.readsMap f).getD [])
  have h5 : ((lookupA st.requiresMap f).getD []).length ≤
      (st.requiresMap.map fun p => p.2.length).sum := by
    rcases hl : lookupA st.requiresMap f with _ | v
    · simp
    · simpa using lookupA_length_le_sum hl
  have h6 : ((lookupA st.readsMap f).getD []).length ≤
      (st.readsMap.map fun p => p.2.length).sum := by
    rcases hl : lookupA st.readsMap f with _ | v
    · simp
    · simpa using lookupA_length_le_sum hl
  have h7 : ((lookupA st.requiresMap f).getD []).length *
        (1 + ((aliases.map (·.2)).flatten).length) ≤
      (st.requiresMap.map fun p => p.2.length).sum *
        (1 + ((aliases.map (·.2)).flatten).length) :=
    Nat.mul_le_mul_right _ h5
  have h8 : ((lookupA st.readsMap f).getD []).length *
        (1 + ((st.setters.map (·.2)).flatten).length) ≤
      (st.readsMap.map fun p => p.2.length).sum *
        (1 + ((st.setters.map (·.2)).flatten).length) :=
    Nat.mul_le_mul_right _ h6
  omega

theorem addSet_of_mem {l : List String} {x : String} (h : x ∈ l) : addSet l x = l := by
  unfold addSet
  rw [if_pos h]

theorem bComp_le_one (se dq : List String) : bComp se dq ≤ 1 := by
  unfold bComp
  rcases dq with _ | ⟨g, r⟩
  · exact Nat.le_refl 1
  · show (if g ∈ se then 1 else 0) ≤ 1
    split_ifs <;> omega

theorem bComp_cons_mem {se : List String} {g : String} (h : g ∈ se) (r : List String) :
    bComp se (g :: r) = 1 := by
  unfold bComp
  show (if g ∈ se then 1 else 0) = 1
  rw [if_pos h]

theorem card_sdiff_addSet {U : Finset String} {l : List String} {f : String}
    (hfU : f ∈ U) (hfl : f ∉ l) :
    (U \ (addSet l f).toFinset).card + 1 = (U \ l.toFinset).card := by
  unfold addSet
  rw [if_neg hfl, List.toFinset_append]
  have he : l.toFinset ∪ [f].toFinset = insert f l.toFinset := by
    rw [List.toFinset_cons, List.toFinset_nil, insert_emptyc_eq]
    rw [Finset.union_comm, ← Finset.insert_eq]
  rw [he, Finset.sdiff_insert]
  exact Finset.card_erase_add_one
    (Finset.mem_sdiff.mpr ⟨hfU, fun hc => hfl (List.mem_toFinset.mp hc)⟩)

theorem ordStep_measure (st : DepState) (aliases : List (String × List String))
    (subdir f : String) (rest : List String) (s : OrdState)
    (hf : f ∈ depUniverse st aliases) :
    ordMeasure st aliases (ordStep st aliases subdir f rest s) <
      ordMeasure st aliases { s with dq := f :: rest } := by
  have hA : 1 ≤ 2 * depBound st aliases + 2 := by omega
  have hD := getFileDependencies_length_le st aliases f subdir
  -- the pre-state measure
  unfold ordMeasure
  dsimp only
  unfold ordStep
  dsimp only
  by_cases hford : f ∈ s.order
  · rw [if_pos hford]
    rcases hfE : s.files with _ | ⟨nf, fs⟩ <;> dsimp only
    · -- no next file
      have hb2 := bComp_le_one (addSet s.seen f) rest
      have hb1 := bComp_le_one s.seen (f :: rest)
      by_cases hfs : f ∈ s.seen
      · rw [addSet_of_mem hfs]
        have hb2x := bComp_le_one s.seen rest
        have hb1' := bComp_cons_mem hfs rest
        have hmul := Nat.mul_le_mul_left (2 * depBound st aliases + 2)
          (by omega :
            (depUniverse st aliases \ s.seen.toFinset).card *
                ((depUniverse st aliases).card + 2) + bComp s.seen rest +
              (depUniverse st aliases \ s.order.toFinset).card ≤
            (depUniverse st aliases \ s.seen.toFinset).card *
                ((depUniverse st aliases).card + 2) + bComp s.seen (f :: rest) +
              (depUniverse st aliases \ s.order.toFinset).card)
        simp only [List.length_cons, List.length_nil]
        omega
      · have hu := card_sdiff_addSet hf hfs
        have hc : (depUniverse st aliases \ s.seen.toFinset).card *
              ((depUniverse st aliases).card + 2) =
            (depUniverse st aliases \ (addSet s.seen f).toFinset).card *
                ((depUniverse st aliases).card + 2) +
              ((depUniverse st aliases).card + 2) := by
          rw [← hu]; ring
        have hmul := Nat.mul_le_mul_left (2 * depBound st aliases + 2)
          (by omega :
            (depUniverse st aliases \ (addSet s.seen f).toFinset).card *
                ((depUniverse st aliases).card + 2) + bComp (addSet s.seen f) rest +
              (depUniverse st aliases \ s.order.toFinset).card + 1 ≤
            (depUniverse st aliases \ s.seen.toFinset).card *
                ((depUniverse st aliases).card + 2) + bComp s.seen (f :: rest) +
              (depUniverse st aliases \ s.order.toFinset).card)
        rw [Nat.mul_add, Nat.mul_one] at hmul
        simp only [List.length_cons, List.length_nil]
        omega
    · -- move the next file to the deque
      have hb2 := bComp_le_one (addSet s.seen f) (rest ++ [nf])
      have hb1 := bComp_le_one s.seen (f :: rest)
      by_cases hfs : f ∈ s.seen
      · rw [addSet_of_mem hfs]
        have hb2x := bComp_le_one s.seen (rest ++ [nf])
        have hb1' := bComp_cons_mem hfs rest
        have hmul := Nat.mul_le_mul_left (2 * depBound st aliases + 2)
          (by omega :
            (depUniverse st aliases \ s.seen.toFinset).card *
                ((depUniverse st aliases).card + 2) + bComp s.seen (rest ++ [nf]) +
              (depUniverse st aliases \ s.order.toFinset).card ≤
            (depUniverse st aliases \ s.seen.toFinset).card *
                ((depUniverse st aliases).card + 2) + bComp s.seen (f :: rest) +
              (depUniverse st aliases \ s.order.toFinset).card)
        simp only [List.length_cons, List.length_append, List.length_nil]
        omega
      · have hu := card_sdiff_addSet hf hfs
        have hc : (depUniverse st aliases \ s.seen.toFinset).card *
              ((depUniverse st aliases).card + 2) =
            (depUniverse st aliases \ (addSet s.seen f).toFinset).card *
                ((depUniverse st aliases).card + 2) +
              ((depUniverse st aliases).card + 2) := by
          rw [← hu]; ring
        have hmul := Nat.mul_le_mul_left (2 * depBound st aliases + 2)
          (by omega :
            (depUniverse st aliases \ (addSet s.seen f).toFinset).card *
                ((depUniverse st aliases).card + 2) +
              bComp (addSet s.seen f) (rest ++ [nf]) +
              (depUniverse st aliases \ s.order.toFinset).card + 1 ≤
            (depUniverse st aliases \ s.seen.toFinset).card *
                ((depUniverse st aliases).card + 2) + bComp s.seen (f :: rest) +
              (depUniverse st aliases \ s.order.toFinset).card)
        rw [Nat.mul_add, Nat.mul_one] at hmul
        simp only [List.length_cons, List.length_append, List.length_nil]
        omega
  · rw [if_neg hford]
    by_cases hDe : (getFileDependencies st f subdir aliases).filter
        (fun d => decide (d ∉ s.order) && decide (d ∉ addSet s.seen f)) = []
    · rw [if_pos hDe]
      -- append f to the order
      have hou : (depUniverse st aliases \ (addSet s.order f).toFinset).card + 1 =
          (depUniverse st aliases \ s.order.toFinset).card :=
        card_sdiff_addSet hf hford
      rcases hfE : s.files with _ | ⟨nf, fs⟩ <;> dsimp only
      · have hb2 := bComp_le_one (addSet s.seen f) rest
        have hb1 := bComp_le_one s.seen (f :: rest)
        by_cases hfs : f ∈ s.seen
        · rw [addSet_of_mem hfs]
          have hb2x := bComp_le_one s.seen rest
          have hmul := Nat.mul_le_mul_left (2 * depBound st aliases + 2)
            (by omega :
              (depUniverse st aliases \ s.seen.toFinset).card *
                  ((depUniverse st aliases).card + 2) + bComp s.seen rest +
                (depUniverse st aliases \ (addSet s.order f).toFinset).card ≤
              (depUniverse st aliases \ s.seen.toFinset).card *
                  ((depUniverse st aliases).card + 2) + bComp s.seen (f :: rest) +
                (depUniverse st aliases \ s.order.toFinset).card)
          simp only [List.length_cons, List.length_nil]
          have hb1' := bComp_cons_mem hfs rest
          omega
        · have hu := card_sdiff_addSet hf hfs
          have hc : (depUniverse st aliases \ s.seen.toFinset).card *
                ((depUniverse st aliases).card + 2) =
              (depUniverse st aliases \ (addSet s.seen f).toFinset).card *
                  ((depUniverse st aliases).card + 2) +
                ((depUniverse st aliases).card + 2) := by
            rw [← hu]; ring
          have hmul := Nat.mul_le_mul_left (2 * depBound st aliases + 2)
            (by omega :
              (depUniverse st aliases \ (addSet s.seen f).toFinset).card *
                  ((depUniverse st aliases).card + 2) +
                bComp (addSet s.seen f) rest +
                (depUniverse st aliases \ (addSet s.order f).toFinset).card + 1 ≤
              (depUniverse st aliases \ s.seen.toFinset).card *
                  ((depUniverse st aliases).card + 2) + bComp s.seen (f :: rest) +
                (depUniverse st aliases \ s.order.toFinset).card)
          rw [Nat.mul_add, Nat.mul_one] at hmul
          simp only [List.length_cons, List.length_nil]
          omega
      · have hb2 := bComp_le_one (addSet s.seen f) (rest ++ [nf])
        have hb1 := bComp_le_one s.seen (f :: rest)
        by_cases hfs : f ∈ s.seen
        · rw [addSet_of_mem hfs]
          have hb2x := bComp_le_one s.seen (rest ++ [nf])
          have hmul := Nat.mul_le_mul_left (2 * depBound st aliases + 2)
            (by omega :
              (depUniverse st aliases \ s.seen.toFinset).card *
                  ((depUniverse st aliases).card + 2) + bComp s.seen (rest ++ [nf]) +
                (depUniverse st aliases \ (addSet s.order f).toFinset).card ≤
              (depUniverse st aliases \ s.seen.toFinset).card *
                  ((depUniverse st aliases).card + 2) + bComp s.seen (f :: rest) +
                (depUniverse st aliases \ s.order.toFinset).card)
          simp only [List.length_cons, List.length_append, List.length_nil]
          have hb1' := bComp_cons_mem hfs rest
          omega
        · have hu := card_sdiff_addSet hf hfs
          have hc : (depUniverse st aliases \ s.seen.toFinset).card *
                ((depUniverse st aliases).card + 2) =
              (depUniverse st aliases \ (addSet s.seen f).toFinset).card *
                  ((depUniverse st aliases).card + 2) +
                ((depUniverse st aliases).card + 2) := by
            rw [← hu]; ring
          have hmul := Nat.mul_le_mul_left (2 * depBound st aliases + 2)
            (by omega :
              (depUniverse st aliases \ (addSet s.seen f).toFinset).card *
                  ((depUniverse st aliases).card + 2) +
                bComp (addSet s.seen f) (rest ++ [nf]) +
                (depUniverse st aliases \ (addSet s.order f).toFinset).card + 1 ≤
              (depUniverse st aliases \ s.seen.toFinset).card *
                  ((depUniverse st aliases).card + 2) + bComp s.seen (f :: rest) +
                (depUniverse st aliases \ s.order.toFinset).card)
          rw [Nat.mul_add, Nat.mul_one] at hmul
          simp only [List.length_cons, List.length_append, List.length_nil]
          omega
    · rw [if_neg hDe]
      dsimp only
      -- the re-push branch: the new head is an unseen dependency
      have hlenD : ((getFileDependencies st f subdir aliases).filter
          (fun d => decide (d ∉ s.order) && decide (d ∉ addSet s.seen f))).length ≤
          depBound st aliases :=
        Nat.le_trans (List.length_filter_le _ _) hD
      have hbz : bComp (addSet s.seen f)
          (((getFileDependencies st f subdir aliases).filter
            (fun d => decide (d ∉ s.order) && decide (d ∉ addSet s.seen f))).reverse ++
            f :: rest) = 0 := by
        rcases hrev : ((getFileDependencies st f subdir aliases).filter
            (fun d => decide (d ∉ s.order) && decide (d ∉ addSet s.seen f))).reverse
            with _ | ⟨y, ys⟩
        · exact absurd (List.reverse_eq_nil_iff.mp hrev) hDe
        · have hy : y ∈ (getFileDependencies st f subdir aliases).filter
              (fun d => decide (d ∉ s.order) && decide (d ∉ addSet s.seen f)) := by
            rw [← List.mem_reverse, hrev]
            exact List.mem_cons_self y ys
          have hy2 := (List.mem_filter.mp hy).2
          rw [Bool.and_eq_true] at hy2
          have hy3 : y ∉ addSet s.seen f := of_decide_eq_true hy2.2
          unfold bComp
          show (if y ∈ addSet s.seen f then 1 else 0) = 0
          rw [if_neg hy3]
      rw [hbz]
      simp only [List.length_append, List.length_reverse, List.length_cons]
      by_cases hfs : f ∈ s.seen
      · rw [addSet_of_mem hfs] at *
        have hb1' := bComp_cons_mem hfs rest
        have hmul := Nat.mul_le_mul_left (2 * depBound st aliases + 2)
          (by omega :
            (depUniverse st aliases \ s.seen.toFinset).card *
                ((depUniverse st aliases).card + 2) + 0 +
              (depUniverse st aliases \ s.order.toFinset).card + 1 ≤
            (depUniverse st aliases \ s.seen.toFinset).card *
                ((depUniverse st aliases).card + 2) + bComp s.seen (f :: rest) +
              (depUniverse st aliases \ s.order.toFinset).card)
        rw [Nat.mul_add, Nat.mul_one] at hmul
        omega
      · have hu := card_sdiff_addSet hf hfs
        have hc : (depUniverse st aliases \ s.seen.toFinset).card *
              ((depUniverse st aliases).card + 2) =
            (depUniverse st aliases \ (addSet s.seen f).toFinset).card *
                ((depUniverse st aliases).card + 2) +
              ((depUniverse st aliases).card + 2) := by
          rw [← hu]; ring
        have hmul := Nat.mul_le_mul_left (2 * depBound st aliases + 2)
          (by omega :
            (depUniverse st aliases \ (addSet s.seen f).toFinset).card *
                ((depUniverse st aliases).card + 2) + 0 +
              (depUniverse st aliases \ s.order.toFinset).card + 1 ≤
            (depUniverse st aliases \ s.seen.toFinset).card *
                ((depUniverse st aliases).card + 2) + bComp s.seen (f :: rest) +
              (depUniverse st aliases \ s.order.toFinset).card)
        rw [Nat.mul_add, Nat.mul_one] at hmul
        omega

theorem listModify_length {α : Type} (f : α → α) :
    ∀ (l : List α) (i : Nat), (listModify l i f).length = l.length := by
  intro l
  induction l with
  | nil => intro i; rfl
  | cons a r ih =>
    intro i
    cases i with
    | zero => rfl
    | succ n =>
      show (a :: listModify r n f).length = (a :: r).length
      rw [List.length_cons, List.length_cons, ih n]

theorem mem_listModify {α : Type} {f : α → α} :
    ∀ {l : List α} {i : Nat} {p : α}, p ∈ listModify l i f →
      p ∈ l ∨ ∃ q ∈ l, p = f q := by
  intro l
  induction l with
  | nil => intro i p h; exact absurd h (List.not_mem_nil p)
  | cons a r ih =>
    intro i p h
    cases i with
    | zero =>
      rcases List.mem_cons.mp h with rfl | hm
      · exact Or.inr ⟨a, List.mem_cons_self a r, rfl⟩
      · exact Or.inl (List.mem_cons_of_mem a hm)
    | succ n =>
      rcases List.mem_cons.mp h with rfl | hm
      · exact Or.inl (List.mem_cons_self _ _)
      · rcases ih hm with h1 | ⟨q, hq, h2⟩
        · exact Or.inl (List.mem_cons_of_mem a h1)
        · exact Or.inr ⟨q, List.mem_cons_of_mem a hq, h2⟩

theorem pushAt_length (parts : List (List String)) (i : Nat) (x : String) :
    (pushAt parts i x).length = parts.length :=
  listModify_length _ parts i

theorem pushAt_mem_self {x : String} :
    ∀ {parts : List (List String)} {i : Nat}, i < parts.length →
      ∃ p ∈ pushAt parts i x, x ∈ p := by
  intro parts
  induction parts with
  | nil => intro i h; exact absurd h (Nat.not_lt_zero i)
  | cons a r ih =>
    intro i h
    cases i with
    | zero =>
      show ∃ p ∈ (a ++ [x]) :: r, x ∈ p
      exact ⟨a ++ [x], List.mem_cons_self _ _,
        List.mem_append.mpr (Or.inr (List.mem_cons_self x []))⟩
    | succ n =>
      show ∃ p ∈ a :: pushAt r n x, x ∈ p
      obtain ⟨p, hp, hx⟩ := ih (Nat.lt_of_succ_lt_succ h)
      exact ⟨p, List.mem_cons_of_mem a hp, hx⟩

theorem pushAt_mono {y x : String} :
    ∀ {parts : List (List String)} {i : Nat}, (∃ p ∈ parts, y ∈ p) →
      ∃ p ∈ pushAt parts i x, y ∈ p := by
  intro parts
  induction parts with
  | nil =>
    intro i h
    obtain ⟨p, hp, -⟩ := h
    exact absurd hp (List.not_mem_nil p)
  | cons a r ih =>
    intro i h
    obtain ⟨p, hp, hy⟩ := h
    cases i with
    | zero =>
      show ∃ p ∈ (a ++ [x]) :: r, y ∈ p
      rcases List.mem_cons.mp hp with rfl | hm
      · exact ⟨p ++ [x], List.mem_cons_self _ _, List.mem_append.mpr (Or.inl hy)⟩
      · exact ⟨p, List.mem_cons_of_mem _ hm, hy⟩
    | succ n =>
      show ∃ p ∈ a :: pushAt r n x, y ∈ p
      rcases List.mem_cons.mp hp with rfl | hm
      · exact ⟨p, List.mem_cons_self _ _, hy⟩
      · obtain ⟨q, hq, hyq⟩ := ih ⟨p, hm, hy⟩
        exact ⟨q, List.mem_cons_of_mem a hq, hyq⟩

theorem groupStep_length (pres : List String) (acc : List (List String) × List String)
    (id : String) : (groupStep pres acc id).1.length = acc.1.length := by
  unfold groupStep
  split
  · exact pushAt_length acc.1 _ id
  · rfl

theorem groupStep_mem (pres : List String) (acc : List (List String) × List String)
    (id : String) (hlen : acc.1.length = pres.length) :
    (∃ p ∈ (groupStep pres acc id).1, id ∈ p) ∨ id ∈ (groupStep pres acc id).2 := by
  unfold groupStep
  split
  next i hi =>
    refine Or.inl (pushAt_mem_self ?_)
    have hilt := (List.findIdx?_eq_some_iff_findIdx_eq.mp hi).1
    omega
  next =>
    exact Or.inr (List.mem_append.mpr (Or.inr (List.mem_cons_self id [])))

theorem groupStep_mono (pres : List String) (acc : List (List String) × List String)
    (id y : String) (h : (∃ p ∈ acc.1, y ∈ p) ∨ y ∈ acc.2) :
    (∃ p ∈ (groupStep pres acc id).1, y ∈ p) ∨ y ∈ (groupStep pres acc id).2 := by
  unfold groupStep
  split
  next i hi =>
    rcases h with h1 | h2
    · exact Or.inl (pushAt_mono h1)
    · exact Or.inr h2
  next =>
    rcases h with h1 | h2
    · exact Or.inl h1
    · exact Or.inr (List.mem_append.mpr (Or.inl h2))

theorem groupStep_sub (pres : List String) (acc : List (List String) × List String)
    (id y : String)
    (h : (∃ p ∈ (groupStep pres acc id).1, y ∈ p) ∨ y ∈ (groupStep pres acc id).2) :
    (∃ p ∈ acc.1, y ∈ p) ∨ y ∈ acc.2 ∨ y = id := by
  unfold groupStep at h
  split at h
  next i hi =>
    rcases h with ⟨p, hp, hy⟩ | h2
    · rcases mem_listModify hp with hp1 | ⟨q, hq, h2⟩
      · exact Or.inl ⟨p, hp1, hy⟩
      · subst h2
        rcases List.mem_append.mp hy with hyq | hyx
        · exact Or.inl ⟨q, hq, hyq⟩
        · exact Or.inr (Or.inr (List.mem_singleton.mp hyx))
    · exact Or.inr (Or.inl h2)
  next =>
    rcases h with h1 | h2
    · exact Or.inl h1
    · rcases List.mem_append.mp h2 with h3 | h4
      · exact Or.inr (Or.inl h3)
      · exact Or.inr (Or.inr (List.mem_singleton.mp h4))

theorem foldl_groupStep_facts (pres : List String) :
    ∀ (fs : List String) (acc : List (List String) × List String),
    acc.1.length = pres.length →
    (fs.foldl (groupStep pres) acc).1.length = pres.length ∧
    (∀ y, ((∃ p ∈ acc.1, y ∈ p) ∨ y ∈ acc.2 ∨ y ∈ fs) →
      (∃ p ∈ (fs.foldl (groupStep pres) acc).1, y ∈ p) ∨
        y ∈ (fs.foldl (groupStep pres) acc).2) ∧
    (∀ y, ((∃ p ∈ (fs.foldl (groupStep pres) acc).1, y ∈ p) ∨
        y ∈ (fs.foldl (groupStep pres) acc).2) →
      (∃ p ∈ acc.1, y ∈ p) ∨ y ∈ acc.2 ∨ y ∈ fs) := by
  intro fs
  induction fs with
  | nil =>
    intro acc hlen
    refine ⟨hlen, ?_, ?_⟩
    · intro y hy
      rcases hy with h1 | h2 | h3
      · exact Or.inl h1
      · exact Or.inr h2
      · exact absurd h3 (List.not_mem_nil y)
    · intro y hy
      rcases hy with h1 | h2
      · exact Or.inl h1
      · exact Or.inr (Or.inl h2)
  | cons a r ih =>
    intro acc hlen
    have hlen1 : (groupStep pres acc a).1.length = pres.length := by
      rw [groupStep_length]
      exact hlen
    obtain ⟨ihl, ihf, ihb⟩ := ih (groupStep pres acc a) hlen1
    refine ⟨ihl, ?_, ?_⟩
    · intro y hy
      apply ihf
      rcases hy with h1 | h2 | h3
      · rcases groupStep_mono pres acc a y (Or.inl h1) with hs | hs
        · exact Or.inl hs
        · exact Or.inr (Or.inl hs)
      · rcases groupStep_mono pres acc a y (Or.inr h2) with hs | hs
        · exact Or.inl hs
        · exact Or.inr (Or.inl hs)
      · rcases List.mem_cons.mp h3 with rfl | hm
        · rcases groupStep_mem pres acc y hlen with hs | hs
          · exact Or.inl hs
          · exact Or.inr (Or.inl hs)
        · exact Or.inr (Or.inr hm)
    · intro y hy
      rcases ihb y hy with h1 | h2 | h3
      · rcases groupStep_sub pres acc a y (Or.inl h1) with hs | hs | hs
        · exact Or.inl hs
        · exact Or.inr (Or.inl hs)
        · exact Or.inr (Or.inr (by rw [hs]; exact List.mem_cons_self a r))
      · rcases groupStep_sub pres acc a y (Or.inr h2) with hs | hs | hs
        · exact Or.inl hs
        · exact Or.inr (Or.inl hs)
        · exact Or.inr (Or.inr (by rw [hs]; exact List.mem_cons_self a r))
      · exact Or.inr (Or.inr (List.mem_cons_of_mem a h3))

theorem groupFiles_length (subdirs fileSet : List String) :
    (groupFiles subdirs fileSet).length = subdirs.length + 1 := by
  unfold groupFiles
  dsimp only
  have h := (foldl_groupStep_facts (subdirs.map (· ++ "/")) fileSet
      (subdirs.map fun _ => [], []) (by simp)).1
  rw [List.length_append, h, List.length_map, List.length_singleton]

theorem groupFiles_complete {subdirs fileSet : List String} {y : String}
    (hy : y ∈ fileSet) : ∃ p ∈ groupFiles subdirs fileSet, y ∈ p := by
  unfold groupFiles
  dsimp only
  have h := (foldl_groupStep_facts (subdirs.map (· ++ "/")) fileSet
      (subdirs.map fun _ => [], []) (by simp)).2.1 y (Or.inr (Or.inr hy))
  rcases h with ⟨p, hp, hyp⟩ | h2
  · exact ⟨p, List.mem_append.mpr (Or.inl hp), hyp⟩
  · exact ⟨(fileSet.foldl (groupStep (subdirs.map (· ++ "/")))
        (subdirs.map fun _ => [], [])).2,
      List.mem_append.mpr (Or.inr (List.mem_cons_self _ _)), h2⟩

theorem groupFiles_sub {subdirs fileSet : List String} {p : List String}
    (hp : p ∈ groupFiles subdirs fileSet) {y : String} (hy : y ∈ p) :
    y ∈ fileSet := by
  unfold groupFiles at hp
  dsimp only at hp
  have hback := (foldl_groupStep_facts (subdirs.map (· ++ "/")) fileSet
      (subdirs.map fun _ => [], []) (by simp)).2.2 y
  rcases List.mem_append.mp hp with hp1 | hp2
  · rcases hback (Or.inl ⟨p, hp1, hy⟩) with ⟨q, hq, hyq⟩ | h2 | h3
    · rcases List.mem_map.mp hq with ⟨a, -, rfl⟩
      exact absurd hyq (List.not_mem_nil y)
    · exact absurd h2 (List.not_mem_nil y)
    · exact h3
  · rw [List.mem_singleton] at hp2
    subst hp2
    rcases hback (Or.inr hy) with ⟨q, hq, hyq⟩ | h2 | h3
    · rcases List.mem_map.mp hq with ⟨a, -, rfl⟩
      exact absurd hyq (List.not_mem_nil y)
    · exact absurd h2 (List.not_mem_nil y)
    · exact h3

theorem zip_cover {α β : Type} :
    ∀ {l1 : List α} {l2 : List β}, l1.length = l2.length →
      ∀ p ∈ l1, ∃ q, (p, q) ∈ l1.zip l2 := by
  intro l1
  induction l1 with
  | nil => intro l2 h p hp; exact absurd hp (List.not_mem_nil p)
  | cons a r ih =>
    intro l2 h p hp
    cases l2 with
    | nil => simp at h
    | cons b s =>
      rcases List.mem_cons.mp hp with rfl | hm
      · exact ⟨b, List.mem_cons_self _ _⟩
      · obtain ⟨q, hq⟩ := ih (by simpa using h) p hm
        exact ⟨q, List.mem_cons_of_mem _ hq⟩

theorem ordStep_facts (st : DepState) (aliases : List (String × List String))
    (subdir f : String) (rest : List String) (s : OrdState)
    (hfU : f ∈ depUniverse st aliases)
    (hdqm : ∀ x ∈ rest, x ∈ depUniverse st aliases)
    (hfiles : ∀ x ∈ s.files, x ∈ depUniverse st aliases)
    (hord : s.order.Nodup) :
    (∀ x ∈ (ordStep st aliases subdir f rest s).dq, x ∈ depUniverse st aliases) ∧
    (∀ x ∈ (ordStep st aliases subdir f rest s).files, x ∈ depUniverse st aliases) ∧
    (ordStep st aliases subdir f rest s).order.Nodup ∧
    ((ordStep st aliases subdir f rest s).dq = [] →
      (ordStep st aliases subdir f rest s).files = []) ∧
    (∀ x, (x ∈ s.files ∨ x ∈ f :: rest ∨ x ∈ s.order) →
      (x ∈ (ordStep st aliases subdir f rest s).files ∨
        x ∈ (ordStep st aliases subdir f rest s).dq ∨
        x ∈ (ordStep st aliases subdir f rest s).order)) := by
  unfold ordStep
  dsimp only
  by_cases hford : f ∈ s.order
  · rw [if_pos hford]
    rcases hfE : s.files with _ | ⟨nf, fs⟩
    · refine ⟨hdqm, ?_, hord, fun _ => rfl, ?_⟩
      · intro x hx
        exact absurd hx (List.not_mem_nil x)
      · intro x hx
        rcases hx with hx | hx | hx
        · exact absurd hx (List.not_mem_nil x)
        · rcases List.mem_cons.mp hx with rfl | hm
          · exact Or.inr (Or.inr hford)
          · exact Or.inr (Or.inl hm)
        · exact Or.inr (Or.inr hx)
    · rw [hfE] at hfiles
      refine ⟨?_, ?_, hord, ?_, ?_⟩
      · intro x hx
        rcases List.mem_append.mp hx with hm | hm
        · exact hdqm x hm
        · rw [List.mem_singleton] at hm
          subst hm
          exact hfiles x (List.mem_cons_self _ _)
      · intro x hx
        exact hfiles x (List.mem_cons_of_mem nf hx)
      · intro habs
        simp at habs
      · intro x hx
        rcases hx with hx | hx | hx
        · rcases List.mem_cons.mp hx with rfl | hm
          · exact Or.inr (Or.inl (List.mem_append.mpr
              (Or.inr (List.mem_cons_self _ _))))
          · exact Or.inl hm
        · rcases List.mem_cons.mp hx with rfl | hm
          · exact Or.inr (Or.inr hford)
          · exact Or.inr (Or.inl (List.mem_append.mpr (Or.inl hm)))
        · exact Or.inr (Or.inr hx)
  · rw [if_neg hford]
    by_cases hDe : (getFileDependencies st f subdir aliases).filter
        (fun d => decide (d ∉ s.order) && decide (d ∉ addSet s.seen f)) = []
    · rw [if_pos hDe]
      rcases hfE : s.files with _ | ⟨nf, fs⟩
      · refine ⟨hdqm, ?_, nodup_addSet hord f, fun _ => rfl, ?_⟩
        · intro x hx
          exact absurd hx (List.not_mem_nil x)
        · intro x hx
          rcases hx with hx | hx | hx
          · exact absurd hx (List.not_mem_nil x)
          · rcases List.mem_cons.mp hx with rfl | hm
            · exact Or.inr (Or.inr (mem_addSet.mpr (Or.inr rfl)))
            · exact Or.inr (Or.inl hm)
          · exact Or.inr (Or.inr (mem_addSet.mpr (Or.inl hx)))
      · rw [hfE] at hfiles
        refine ⟨?_, ?_, nodup_addSet hord f, ?_, ?_⟩
        · intro x hx
          rcases List.mem_append.mp hx with hm | hm
          · exact hdqm x hm
          · rw [List.mem_singleton] at hm
            subst hm
            exact hfiles x (List.mem_cons_self _ _)
        · intro x hx
          exact hfiles x (List.mem_cons_of_mem nf hx)
        · intro habs
          simp at habs
        · intro x hx
          rcases hx with hx | hx | hx
          · rcases List.mem_cons.mp hx with rfl | hm
            · exact Or.inr (Or.inl (List.mem_append.mpr
                (Or.inr (List.mem_cons_self _ _))))
            · exact Or.inl hm
          · rcases List.mem_cons.mp hx with rfl | hm
            · exact Or.inr (Or.inr (mem_addSet.mpr (Or.inr rfl)))
            · exact Or.inr (Or.inl (List.mem_append.mpr (Or.inl hm)))
          · exact Or.inr (Or.inr (mem_addSet.mpr (Or.inl hx)))
    · rw [if_neg hDe]
      refine ⟨?_, hfiles, hord, ?_, ?_⟩
      · intro x hx
        rcases List.mem_append.mp hx with hm | hm
        · rw [List.mem_reverse] at hm
          exact deps_mem_depUniverse (List.mem_filter.mp hm).1
        · rcases List.mem_cons.mp hm with rfl | hm2
          · exact hfU
          · exact hdqm x hm2
      · intro habs
        simp at habs
      · intro x hx
        rcases hx with hx | hx | hx
        · exact Or.inl hx
        · exact Or.inr (Or.inl (List.mem_append.mpr (Or.inr hx)))
        · exact Or.inr (Or.inr hx)

theorem ordLoop_correct (st : DepState) (aliases : List (String × List String))
    (subdir : String) : ∀ (n : Nat) (s : OrdState),
    (∀ x ∈ s.dq, x ∈ depUniverse st aliases) →
    (∀ x ∈ s.files, x ∈ depUniverse st aliases) →
    s.order.Nodup →
    (s.dq = [] → s.files = []) →
    ordMeasure st aliases s < n →
    ∃ o se, ordLoop st aliases subdir n s = some (o, se) ∧ o.Nodup ∧
      (∀ x, (x ∈ s.files ∨ x ∈ s.dq ∨ x ∈ s.order) → x ∈ o) := by
  intro n
  induction n with
  | zero =>
    intro s _ _ _ _ hm
    exact absurd hm (Nat.not_lt_zero _)
  | succ n ih =>
    intro s hdq hfiles hord hde hm
    rcases hdqE : s.dq with _ | ⟨f, rest⟩
    · refine ⟨s.order, s.seen, ?_, hord, ?_⟩
      · unfold ordLoop
        rw [hdqE]
      · intro x hx
        rcases hx with hx | hx | hx
        · rw [hde hdqE] at hx
          exact absurd hx (List.not_mem_nil x)
        · exact absurd hx (List.not_mem_nil x)
        · exact hx
    · have hfU : f ∈ depUniverse st aliases :=
        hdq f (by rw [hdqE]; exact List.mem_cons_self f rest)
      have hrest : ∀ x ∈ rest, x ∈ depUniverse st aliases := fun x hx =>
        hdq x (by rw [hdqE]; exact List.mem_cons_of_mem f hx)
      obtain ⟨hdq2, hfiles2, hord2, hde2, hcar⟩ :=
        ordStep_facts st aliases subdir f rest s hfU hrest hfiles hord
      have hs : ({ s with dq := f :: rest } : OrdState) = s := by
        rw [← hdqE]
      have hm2 : ordMeasure st aliases (ordStep st aliases subdir f rest s) < n := by
        have h2 := ordStep_measure st aliases subdir f rest s hfU
        rw [hs] at h2
        omega
      obtain ⟨o, se, hrun, honodup, hocar⟩ :=
        ih (ordStep st aliases subdir f rest s) hdq2 hfiles2 hord2 hde2 hm2
      refine ⟨o, se, ?_, honodup, ?_⟩
      · unfold ordLoop
        rw [hdqE]
        exact hrun
      · intro x hx
        exact hocar x (hcar x hx)

theorem runPartition_correct (st : DepState) (aliases : List (String × List String))
    (subdir : String) (files order seen : List String)
    (hfiles : ∀ x ∈ files, x ∈ depUniverse st aliases)
    (hord : order.Nodup) :
    ∃ o se, runPartition st aliases subdir files order seen = some (o, se) ∧
      o.Nodup ∧ (∀ x ∈ files, x ∈ o) ∧ (∀ x ∈ order, x ∈ o) := by
  unfold runPartition
  by_cases hE : files.isEmpty
  · rw [if_pos hE]
    refine ⟨order, seen, rfl, hord, ?_, fun x hx => hx⟩
    intro x hx
    rw [List.isEmpty_iff] at hE
    rw [hE] at hx
    exact absurd hx (List.not_mem_nil x)
  · rw [if_neg hE]
    rcases hsort : sortForStack files with _ | ⟨f, rest⟩
    · exfalso
      apply hE
      rw [List.isEmpty_iff, List.eq_nil_iff_forall_not_mem]
      intro x hx
      have h2 : x ∈ sortForStack files := mem_sortForStack.mpr hx
      rw [hsort] at h2
      exact absurd h2 (List.not_mem_nil x)
    · have hdq0 : ∀ x ∈ [f], x ∈ depUniverse st aliases := by
        intro x hx
        rw [List.mem_singleton] at hx
        subst hx
        have hf2 : x ∈ sortForStack files := by
          rw [hsort]
          exact List.mem_cons_self x rest
        exact hfiles x (mem_sortForStack.mp hf2)
      have hfl0 : ∀ x ∈ rest, x ∈ depUniverse st aliases := by
        intro x hx
        have h2 : x ∈ sortForStack files := by
          rw [hsort]
          exact List.mem_cons_of_mem f hx
        exact hfiles x (mem_sortForStack.mp h2)
      obtain ⟨o, se, hrun, hnd, hcar⟩ :=
        ordLoop_correct st aliases subdir
          (ordMeasure st aliases ⟨rest, [f], order, seen⟩ + 1)
          ⟨rest, [f], order, seen⟩ hdq0 hfl0 hord
          (by intro h; simp at h) (Nat.lt_succ_self _)
      refine ⟨o, se, hrun, hnd, ?_, ?_⟩
      · intro x hx
        have hxs : x ∈ sortForStack files := mem_sortForStack.mpr hx
        rw [hsort] at hxs
        rcases List.mem_cons.mp hxs with rfl | hm
        · exact hcar x (Or.inr (Or.inl (List.mem_cons_self x [])))
        · exact hcar x (Or.inl hm)
      · intro x hx
        exact hcar x (Or.inr (Or.inr hx))

theorem runPartitions_correct (st : DepState) (aliases : List (String × List String)) :
    ∀ (ps : List (List String × String)) (order seen : List String),
    (∀ p ∈ ps, ∀ x ∈ p.1, x ∈ depUniverse st aliases) →
    order.Nodup →
    ∃ o se, runPartitions st aliases ps order seen = some (o, se) ∧ o.Nodup ∧
      (∀ p ∈ ps, ∀ x ∈ p.1, x ∈ o) ∧ (∀ x ∈ order, x ∈ o) := by
  intro ps
  induction ps with
  | nil =>
    intro order seen _ hord
    exact ⟨order, seen, rfl, hord,
      fun p hp => absurd hp (List.not_mem_nil p), fun x hx => hx⟩
  | cons p rest ih =>
    intro order seen hps hord
    obtain ⟨files, subdir⟩ := p
    obtain ⟨o1, se1, hrun1, hnd1, hfl1, hmono1⟩ :=
      runPartition_correct st aliases subdir files order seen
        (hps (files, subdir) (List.mem_cons_self _ _)) hord
    obtain ⟨o, se, hrun, hnd, hfl, hmono⟩ :=
      ih o1 se1 (fun q hq => hps q (List.mem_cons_of_mem _ hq)) hnd1
    refine ⟨o, se, ?_, hnd, ?_, fun x hx => hmono x (hmono1 x hx)⟩
    · unfold runPartitions
      rw [hrun1]
      exact hrun
    · intro q hq x hx
      rcases List.mem_cons.mp hq with rfl | hm
      · exact hmono x (hfl1 x hx)
      · exact hfl q hm x hx

/-- C2: `getAnalysisOrder` terminates on every finite scanned file set
(the fuelled worklist succeeds, it never runs out) and the returned
analysis order contains every scanned file identifier exactly once
(`Nodup` and membership) — in particular every file on a dependency
cycle still appears. -/
theorem c2_analysis_order (st : DepState) (subdirs : List String) :
    ∃ l : List String, getAnalysisOrder st subdirs = some l ∧ l.Nodup ∧
      ∀ f ∈ st.fileSet, f ∈ l := by
  unfold getAnalysisOrder
  dsimp only
  have hlen : (groupFiles subdirs st.fileSet).length = (subdirs ++ [""]).length := by
    rw [groupFiles_length]
    simp
  obtain ⟨o, se, hrun, hnd, hfl, -⟩ :=
    runPartitions_correct st (getAliasMap st.fileSet)
      ((groupFiles subdirs st.fileSet).zip (subdirs ++ [""])) [] []
      (by
        intro p hp x hx
        have hp1 := (List.of_mem_zip hp).1
        exact fileSet_mem_depUniverse (groupFiles_sub hp1 hx))
      List.nodup_nil
  refine ⟨o, ?_, hnd, ?_⟩
  · rw [hrun]
    rfl
  · intro f hf
    obtain ⟨p, hp, hfp⟩ := groupFiles_complete hf
    obtain ⟨q, hq⟩ := zip_cover hlen p hp
    exact hfl (p, q) hq f hfp

end PZStubgen
